import Mathlib

/-!
Verification development for the tangle/stitch core of entangled.py.

Text is modelled at the character level: a string of the source program is a
`List Char` (abbreviated `Str`).  Python string primitives used by the code
under `src/` (lexicographic comparison, `strip`, `lstrip(" \t")`,
`startswith`, `removeprefix`, `str.find`-based line splitting) are embedded
as explicit functions on `Str`.  Whitespace is modelled as the six ASCII
whitespace characters recognised by Python's `str.strip` and the regex
class `\s` on ASCII input.
-/

set_option maxRecDepth 4096


abbrev Str := List Char

/-- Characters matched by the Python regex class `\s` and stripped by
`str.strip()` (ASCII fragment). -/
def pySpace (c : Char) : Bool :=
  c = ' ' || c = '\t' || c = '\n' || c = '\r' || c = '\x0b' || c = '\x0c'

/-- Test used by `line.strip()` truthiness: the line consists of whitespace
only. -/
def pyIsBlank (l : Str) : Bool := l.all pySpace

/-- Model of Python `line.lstrip(" \t")`. -/
def pyLstripSpTab (l : Str) : Str := l.dropWhile (fun c => c = ' ' || c = '\t')

/-- Model of Python `s.startswith(p)`. -/
def pyStartsWith (p s : Str) : Bool := p.isPrefixOf s

/-- Model of Python `s.removeprefix(p)`: drop `p` when it is a prefix,
otherwise return `s` unchanged. -/
def pyDropPre (p s : Str) : Str := if p.isPrefixOf s then s.drop p.length else s

/-- Model of Python string comparison `a < b` (lexicographic by code point). -/
def pyStrLt : Str → Str → Bool
  | [], [] => false
  | [], _ :: _ => true
  | _ :: _, [] => false
  | a :: as, b :: bs =>
    if a = b then pyStrLt as bs else decide (a.toNat < b.toNat)

/-- Substring test: some suffix of `s` has `pat` as a prefix. -/
def containsSub (s pat : Str) : Bool :=
  match s with
  | [] => pat.isPrefixOf ([] : Str)
  | _ :: rest => pat.isPrefixOf s || containsSub rest pat

/-- Decimal digit rendering of a natural number, as Python `str(n)` writes
it.  Structural recursion on a fuel argument keeps the definition
kernel-reducible. -/
def natDigitsAux : Nat → Nat → List Nat
  | 0, _ => []
  | _ + 1, 0 => []
  | f + 1, n + 1 => ((n + 1) % 10) :: natDigitsAux f ((n + 1) / 10)

/-- Decimal digits of a natural number, most significant first, with 0
rendered as "0". -/
def natDigits (n : Nat) : Str :=
  if n = 0 then ['0']
  else ((natDigitsAux (n + 1) n).reverse).map (fun d => Char.ofNat (48 + d))

/-- Numeric value of one ASCII decimal digit. -/
def digitVal (c : Char) : Nat := c.toNat - 48

/-- Numeric value of a most-significant-first digit string, as Python
`int(s)` computes it on decimal digits. -/
def digitsToNat (s : Str) : Nat := s.foldl (fun a c => 10 * a + digitVal c) 0

/-- Location of a token in an input file: filename and 1-based line number. -/
structure TextLocation where
  file : Str
  line : Nat
deriving DecidableEq, Repr

/-- Hierarchical block name: dotted namespace and a leaf name. -/
structure ReferenceName where
  nspace : List Str
  name : Str
deriving DecidableEq, Repr

/-- Splitting a string on a separator character, as Python `s.split(sep)`
does (adjacent separators give empty pieces; the empty string gives one
empty piece). -/
def splitOnChar (sep : Char) : Str → List Str
  | [] => [[]]
  | c :: rest =>
    let r := splitOnChar sep rest
    if c = sep then [] :: r
    else
      match r with
      | [] => [[c]]
      | p :: ps => (c :: p) :: ps

/-- Modelled from the spec: `ReferenceName.from_str` of the reference model
(`entangled/model`, not under src/) parses a dotted hierarchical
identifier; the final dot-separated component is the leaf name and the
preceding components form the namespace. -/
def ReferenceName.from_str (s : Str) : ReferenceName :=
  let parts := splitOnChar '.' s
  { nspace := parts.dropLast, name := parts.getLastD [] }

/-- Dot-joined concatenation of path components. -/
def joinDots : List Str → Str
  | [] => []
  | [p] => p
  | p :: q :: ps => p ++ ['.'] ++ joinDots (q :: ps)

/-- Modelled from the spec: rendering a `ReferenceName` back to the dotted
form used by `str(ReferenceName)`. -/
def ReferenceName.render (r : ReferenceName) : Str :=
  joinDots (r.nspace ++ [r.name])

/-- Identity of one code block occurrence: name, source markdown path and
ordinal.  The back-reader stores ordinal 0 for init blocks and keeps the
init flag separately in `OpenBlockData`. -/
structure ReferenceId where
  name : ReferenceName
  source : Str
  ref_count : Nat
deriving DecidableEq, Repr

/-- Block as produced by the code-file back-reader (`readers/code.py`). -/
structure Block where
  reference_id : ReferenceId
  content : Str
deriving DecidableEq, Repr

/-- Error taxonomy of the embedded code paths.  `parseError` and
`indentationError` mirror the user errors of `errors/user.py`; the
remaining constructors stand for Python exceptions that the modelled code
raises or catches (`KeyError`, `TypeError`, `json.JSONDecodeError`,
`msgspec.ValidationError`). -/
inductive Err where
  | parseError (loc : TextLocation) (msg : Str)
  | indentationError (loc : TextLocation)
  | helpfulUserError (msg : Str)
  | keyError (key : Str)
  | typeError
  | jsonDecodeError
  | validationError
deriving DecidableEq, Repr

/-! ## The annotation grammar of readers/code.py

The two module-level regexes are

  open:  `^(?P<indent>\s*).* ~/~ begin <<(?P<source>[^#<>]+)#(?P<ref_name>[^#<>]+)>>\[(?P<ref_count>\d+|init)\]`
  close: `^(?P<indent>\s*).* ~/~ end`

They are embedded by direct computation.  `re.match` anchors at the start;
the greedy `\s*` captures the longest whitespace prefix for which the rest
of the pattern still matches (the dot does not cross a newline), and the
greedy `.*` selects the last position at which the literal part of the
pattern matches.  Because the literal begins with a space, the only way a
shorter `\s*` capture can succeed where the longest fails is when the
match consumes the final space of the whitespace run; both cases are
implemented below. -/

/-- Ordinal field of an open marker: `init` or a decimal number. -/
inductive OrdTag where
  | initial
  | num (n : Nat)
deriving DecidableEq, Repr

/-- Captures of the open regex after the literal " ~/~ begin <<". -/
structure OpenCapture where
  source : Str
  ref_name : Str
  ord : OrdTag
deriving DecidableEq, Repr

/-- Character class `[^#<>]` of the open regex. -/
def refChar (c : Char) : Bool := !(c = '#' || c = '<' || c = '>')

/-- Parse of `(\d+|init)\]` at the head of a string. -/
def parseOrd (s : Str) : Option OrdTag :=
  let ds := s.takeWhile Char.isDigit
  if ds ≠ [] then
    match s.drop ds.length with
    | ']' :: _ => some (.num (digitsToNat ds))
    | _ => none
  else if ("init]".data).isPrefixOf s then some .initial
  else none

/-- Attempted match of `~/~ begin <<([^#<>]+)#([^#<>]+)>>\[(\d+|init)\]` at
the head of a string (the space before the first tilde is consumed by the
caller). -/
def openTail (s : Str) : Option OpenCapture :=
  if ("~/~ begin <<".data).isPrefixOf s then
    let s1 := s.drop 12
    let src := s1.takeWhile refChar
    if src = [] then none
    else
      match s1.drop src.length with
      | '#' :: s2 =>
        let nm := s2.takeWhile refChar
        if nm = [] then none
        else if (">>[".data).isPrefixOf (s2.drop nm.length) then
          (parseOrd ((s2.drop nm.length).drop 3)).map
            (fun o => { source := src, ref_name := nm, ord := o })
        else none
      | _ => none
  else none

/-- Scan for the last position, not preceded by a newline, at which a space
followed by `openTail` matches; this is the position the greedy `.*`
selects. -/
def searchOpen : Str → Option OpenCapture
  | [] => none
  | c :: rest =>
    (if c = '\n' then none else searchOpen rest).orElse
      (fun _ => if c = ' ' then openTail rest else none)

/-- Scan for an occurrence of " ~/~ end" not preceded by a newline. -/
def searchClose : Str → Bool
  | [] => false
  | c :: rest =>
    (c = ' ' && ("~/~ end".data).isPrefixOf rest) ||
      (c ≠ '\n' && searchClose rest)

/-- Result of a successful open-marker match (`OpenBlockData` of
readers/code.py). -/
structure OpenBlockData where
  ref : ReferenceId
  is_init : Bool
  indent : Str
deriving DecidableEq, Repr

/-- Model of `open_block` of readers/code.py: match the open regex against
a line and build `OpenBlockData`.  The ordinal stored in the
`ReferenceId` is 0 for an init marker. -/
def open_block (line : Str) : Option OpenBlockData :=
  let ws := line.takeWhile pySpace
  let rest := line.dropWhile pySpace
  let build : Str → OpenCapture → OpenBlockData := fun indent cap =>
    let isInit := cap.ord = OrdTag.initial
    let cnt := match cap.ord with | .initial => 0 | .num n => n
    { ref := { name := ReferenceName.from_str cap.ref_name,
               source := cap.source, ref_count := cnt },
      is_init := isInit, indent := indent }
  match searchOpen rest with
  | some cap => some (build ws cap)
  | none =>
    if ws.getLast? = some ' ' then
      match openTail rest with
      | some cap => some (build ws.dropLast cap)
      | none => none
    else none

/-- Captured indent of a close marker (`CloseBlockData` of
readers/code.py). -/
structure CloseBlockData where
  indent : Str
deriving DecidableEq, Repr

/-- Model of `close_block` of readers/code.py: match the close regex
against a line. -/
def close_block (line : Str) : Option CloseBlockData :=
  let ws := line.takeWhile pySpace
  let rest := line.dropWhile pySpace
  if searchClose rest then some { indent := ws }
  else
    if ws.getLast? = some ' ' then
      if ("~/~ end".data).isPrefixOf rest then some { indent := ws.dropLast }
      else none
    else none

/-! ## The back-reader read_block / read_top_level of readers/code.py

The Python functions are generators; `read_block` peeks, and on an open
marker consumes lines until the matching close, recursing on nested open
markers.  The generator protocol is embedded by explicit state passing: a
token stream is a `List Tok`, yielded blocks are returned in order, the
generator return value is returned alongside, and the remaining stream is
returned with a proof that no tokens were invented (needed for
termination of the callers).  `readLoop` is the while-loop body of
`read_block` after the open marker has been consumed; the recursive call
`read_block(block_data.ref.name.namespace, block_data.indent, input)` of
the source is the first match of the loop. -/

abbrev Tok := TextLocation × Str

/-- Result of reading the interior of one open block: blocks yielded in
order, the generator return value (the placeholder for the parent
stream), and the remaining input. -/
abbrev LoopRes (input : List Tok) :=
  List Block × Str × { r : List Tok // r.length ≤ input.length }

/-- While-loop of `read_block` in readers/code.py, entered after the open
marker line of `bd` has been consumed.  `ns` and `indent` are the
`namespace` and `indent` parameters of the enclosing `read_block` call;
`lastPos` is the current value of the Python variable `pos` in that
frame; `acc` is `content_parts`. -/
def readLoop (bd : OpenBlockData) (ns : List Str) (indent : Str)
    (lastPos : TextLocation) (acc : List Str) :
    (input : List Tok) → Except Err (LoopRes input)
  | [] => .error (.parseError lastPos ("unexpected end of file".data))
  | (pos, line) :: rest =>
    match open_block line with
    | some bd2 =>
      if pyStrLt bd2.indent bd.indent then .error (.indentationError pos)
      else
        match readLoop bd2 bd.ref.name.nspace bd.indent pos [] rest with
        | .error e => .error e
        | .ok (bs, s, ⟨rest1, h1⟩) =>
          match readLoop bd ns indent lastPos (acc ++ [s]) rest1 with
          | .error e => .error e
          | .ok (bs2, s2, ⟨rest2, h2⟩) =>
            .ok (bs ++ bs2, s2, ⟨rest2, by
              have : rest1.length ≤ rest.length := h1
              have : rest2.length ≤ rest.length := le_trans h2 this
              exact le_trans this (Nat.le_succ _)⟩)
    | none =>
      match close_block line with
      | none =>
        if pyIsBlank line then
          match readLoop bd ns indent pos (acc ++ [pyLstripSpTab line]) rest with
          | .error e => .error e
          | .ok (bs, s, ⟨rest1, h1⟩) =>
            .ok (bs, s, ⟨rest1, le_trans h1 (Nat.le_succ _)⟩)
        else if !pyStartsWith bd.indent line then .error (.indentationError pos)
        else
          match readLoop bd ns indent pos (acc ++ [pyDropPre bd.indent line]) rest with
          | .error e => .error e
          | .ok (bs, s, ⟨rest1, h1⟩) =>
            .ok (bs, s, ⟨rest1, le_trans h1 (Nat.le_succ _)⟩)
      | some cd =>
        if cd.indent ≠ bd.indent then .error (.indentationError pos)
        else
          let blk : Block := { reference_id := bd.ref, content := acc.flatten }
          let ret : Str :=
            if bd.is_init then
              pyDropPre indent bd.indent ++ ("<<".data) ++
                (if bd.ref.name.nspace = ns then bd.ref.name.name
                 else bd.ref.name.render) ++ (">>".data) ++ ['\n']
            else []
          .ok ([blk], ret, ⟨rest, Nat.le_succ _⟩)
termination_by input => input.length
decreasing_by
  · simp
  · simp only [List.length_cons]; exact Nat.lt_succ_of_le h1
  · simp
  · simp

/-- Interior reading with the length bound erased, for stating theorems. -/
def runLoop (bd : OpenBlockData) (ns : List Str) (indent : Str)
    (lastPos : TextLocation) (acc : List Str) (input : List Tok) :
    Except Err (List Block × Str × List Tok) :=
  (readLoop bd ns indent lastPos acc input).map (fun r => (r.1, r.2.1, r.2.2.val))

/-- Model of `read_block` of readers/code.py.  On empty input or a line
that is not an open marker it returns no generator value and leaves the
input untouched; on an open marker it consumes the line, checks the
indent discipline, and reads the interior. -/
def read_block (ns : List Str) (indent : Str) (input : List Tok) :
    Except Err (List Block × Option Str × List Tok) :=
  match input with
  | [] => .ok ([], none, [])
  | (pos, line1) :: rest =>
    match open_block line1 with
    | none => .ok ([], none, input)
    | some bd =>
      if pyStrLt bd.indent indent then .error (.indentationError pos)
      else
        match readLoop bd ns indent pos [] rest with
        | .error e => .error e
        | .ok (bs, s, ⟨rest1, _⟩) => .ok (bs, some s, rest1)

/-- Model of `read_top_level` of readers/code.py: repeatedly try
`read_block` with empty namespace and indent; a line on which it yields
nothing is discarded. -/
def read_top_level : (input : List Tok) → Except Err (List Block)
  | [] => .ok []
  | (pos, line) :: rest =>
    match open_block line with
    | none => read_top_level rest
    | some bd =>
      if pyStrLt bd.indent [] then .error (.indentationError pos)
      else
        match readLoop bd [] [] pos [] rest with
        | .error e => .error e
        | .ok (bs, _, ⟨rest1, hr1⟩) =>
          match read_top_level rest1 with
          | .error e => .error e
          | .ok bs2 => .ok (bs ++ bs2)
termination_by input => input.length
decreasing_by
  · simp only [List.length_cons]; omega
  · simp only [List.length_cons]; exact Nat.lt_succ_of_le hr1

/-! ## Kernel-reducible mirror of the interior reader

`readLoop` recurses along a well-founded measure and therefore does not
reduce inside the kernel.  `readLoopF` is the same computation driven by a
structural fuel counter; `readLoopF_eq` shows any fuel beyond the input
length reproduces `runLoop` exactly, so concrete runs of the reader can be
established by `rfl` on `readLoopF`. -/

def readLoopF : Nat → OpenBlockData → List Str → Str → TextLocation → List Str →
    List Tok → Option (Except Err (List Block × Str × List Tok))
  | 0, _, _, _, _, _, _ => none
  | f + 1, bd, ns, indent, lastPos, acc, input =>
    match input with
    | [] => some (.error (.parseError lastPos ("unexpected end of file".data)))
    | (pos, line) :: rest =>
      match open_block line with
      | some bd2 =>
        if pyStrLt bd2.indent bd.indent then some (.error (.indentationError pos))
        else
          match readLoopF f bd2 bd.ref.name.nspace bd.indent pos [] rest with
          | none => none
          | some (.error e) => some (.error e)
          | some (.ok (bs, s, rest1)) =>
            match readLoopF f bd ns indent lastPos (acc ++ [s]) rest1 with
            | none => none
            | some (.error e) => some (.error e)
            | some (.ok (bs2, s2, rest2)) => some (.ok (bs ++ bs2, s2, rest2))
      | none =>
        match close_block line with
        | none =>
          if pyIsBlank line then
            readLoopF f bd ns indent pos (acc ++ [pyLstripSpTab line]) rest
          else if !pyStartsWith bd.indent line then some (.error (.indentationError pos))
          else readLoopF f bd ns indent pos (acc ++ [pyDropPre bd.indent line]) rest
        | some cd =>
          if cd.indent ≠ bd.indent then some (.error (.indentationError pos))
          else
            let blk : Block := { reference_id := bd.ref, content := acc.flatten }
            let ret : Str :=
              if bd.is_init then
                pyDropPre indent bd.indent ++ ("<<".data) ++
                  (if bd.ref.name.nspace = ns then bd.ref.name.name
                   else bd.ref.name.render) ++ (">>".data) ++ ['\n']
              else []
            some (.ok ([blk], ret, rest))

/-- Fuel-driven mirror of `read_top_level`. -/
def read_top_levelF : Nat → List Tok → Option (Except Err (List Block))
  | 0, _ => none
  | _ + 1, [] => some (.ok [])
  | f + 1, (pos, line) :: rest =>
    match open_block line with
    | none => read_top_levelF f rest
    | some bd =>
      if pyStrLt bd.indent [] then some (.error (.indentationError pos))
      else
        match readLoopF (rest.length + 1) bd [] [] pos [] rest with
        | none => none
        | some (.error e) => some (.error e)
        | some (.ok (_, _, rest1)) =>
          match read_top_levelF f rest1 with
          | none => none
          | some (.error e) => some (.error e)
          | some (.ok bs2) =>
            match readLoopF (rest.length + 1) bd [] [] pos [] rest with
            | some (.ok (bs, _, _)) => some (.ok (bs ++ bs2))
            | _ => none

/-! ## The line iterator of iterators/lines.py

`lines` splits on newline with `str.find`, yielding every line with its
newline preserved and finally the remainder after the last newline (which
is empty when the text ends in a newline).  `numbered_lines` enumerates
from 1. -/

/-- Model of `lines` of iterators/lines.py. -/
def linesSplit : Str → List Str
  | [] => [[]]
  | c :: rest =>
    if c = '\n' then ['\n'] :: linesSplit rest
    else
      match linesSplit rest with
      | [] => [[c]]
      | l :: ls => (c :: l) :: ls

/-- Model of `numbered_lines` of iterators/lines.py: attach the filename
and a 1-based line number to every line. -/
def numbered_lines (filename : Str) (text : Str) : List Tok :=
  (linesSplit text).enum.map
    (fun p => ({ file := filename, line := p.1 + 1 }, p.2))

/-! ## The file database of io/filedb.py

The collaborators absent from src/ are embedded as follows.  Modelled from
the spec: `Stat` (io/stat.py) records modification time, size and content
hex digest, equal iff all three agree; the content hash is a fixed
deterministic digest; the virtual file cache (io/virtual.py) maps paths to
cached files and updates the recorded stat on write; `__version__`
(version.py) is a fixed version string.  Paths are plain strings in posix
form; `Path.cwd()` is passed explicitly where the source consults it.
The msgspec/json serialisation of the database is embedded as an explicit
reversible encoding: `decodeFileDB` returns `none` for unreadable content
(Python `json.JSONDecodeError`, or a missing version key), and a readable
version whose payload fails shape validation gives a `some (v, none)`
(Python `msgspec.ValidationError`).  The advisory file lock serialises
concurrent processes and has no effect on the single-process semantics
modelled here. -/

/-- Modelled from the spec: recorded state of one file. -/
structure Stat where
  mtime : Nat
  size : Nat
  hexdigest : Str
deriving DecidableEq, Repr

instance : Inhabited Stat := ⟨{ mtime := 0, size := 0, hexdigest := [] }⟩

/-- Modelled from the spec: deterministic content digest used by `Stat`
and `FileDB.check`. -/
def hexdigest (s : Str) : Str :=
  natDigits (s.foldl (fun a c => (a * 31 + c.toNat) % 1000000007) 7)

/-- Modelled from the spec: one cached file of the virtual filesystem. -/
structure VFile where
  content : Str
  stat : Stat
deriving DecidableEq, Repr

/-- Modelled from the spec: the virtual file cache, a finite map from
posix paths to cached files. -/
abbrev VFS := List (Str × VFile)

def vfsFind : VFS → Str → Option VFile
  | [], _ => none
  | (q, f) :: rest, p => if q = p then some f else vfsFind rest p

def vfsMem (fs : VFS) (p : Str) : Bool := (vfsFind fs p).isSome

/-- Modelled from the spec: writing through the cache replaces the content
and refreshes the recorded stat. -/
def vfsWrite (fs : VFS) (p : Str) (c : Str) : VFS :=
  match fs with
  | [] => [(p, { content := c, stat := { mtime := 0, size := c.length, hexdigest := hexdigest c } })]
  | (q, f) :: rest =>
    if q = p then (q, { content := c, stat := { mtime := 0, size := c.length, hexdigest := hexdigest c } }) :: rest
    else (q, f) :: vfsWrite rest p c

/-- Modelled from the spec: the running tool version (version.py). -/
def entangledVersion : Str := "2.0.0".data

/-- Persistent file database of io/filedb.py. -/
structure FileDB where
  version : Str
  files : List (Str × Stat)
  targets : List Str
deriving DecidableEq, Repr

/-- Key membership in the files map. -/
def mapHasKey (m : List (Str × Stat)) (k : Str) : Bool := m.any (fun q => q.1 = k)

/-- Python dict assignment: update the binding in place, or append it. -/
def mapInsert (m : List (Str × Stat)) (k : Str) (v : Stat) : List (Str × Stat) :=
  match m with
  | [] => [(k, v)]
  | (q, w) :: rest => if q = k then (k, v) :: rest else (q, w) :: mapInsert rest k v

/-- Python dict deletion of a present key. -/
def mapErase (m : List (Str × Stat)) (k : Str) : List (Str × Stat) :=
  m.filter (fun q => q.1 ≠ k)

/-- Python set.add on the targets set. -/
def targetsAdd (l : List Str) (k : Str) : List Str :=
  if k ∈ l then l else l ++ [k]

/-- Python set.remove on the targets set. -/
def targetsRemove (l : List Str) (k : Str) : List Str := l.filter (· ≠ k)

def isAbsPath (p : Str) : Bool := p.head? = some '/'

/-- Python `path.relative_to(Path.cwd())` for a path below the working
directory (the ValueError branch for foreign absolute paths is outside
the behaviour exercised here). -/
def relToCwd (cwd p : Str) : Str := pyDropPre (cwd ++ ['/']) p

def normPath (cwd p : Str) : Str := if isAbsPath p then relToCwd cwd p else p

/-- Model of `FileDB.clear`. -/
def FileDB.clear (db : FileDB) : FileDB := { db with files := [], targets := [] }

/-- Model of `FileDB.update`: re-read the stat through the cache and store
it, provided the file is present in the cache. -/
def FileDB.update (cwd : Str) (fs : VFS) (db : FileDB) (path : Str) : FileDB :=
  let path := normPath cwd path
  match vfsFind fs path with
  | some vf => { db with files := mapInsert db.files path vf.stat }
  | none => db

/-- Model of `FileDB.create_target`: update, then add to targets. -/
def FileDB.create_target (cwd : Str) (fs : VFS) (db : FileDB) (path : Str) : FileDB :=
  let path := normPath cwd path
  let db2 := FileDB.update cwd fs db path
  { db2 with targets := targetsAdd db2.targets path }

/-- Model of `FileDB.__delitem__`: the path is discarded from the targets
set when present, then deleted from the files map (Python raises KeyError
when the files map lacks it). -/
def FileDB.delitem (db : FileDB) (path : Str) : Except Err FileDB :=
  let db1 := if path ∈ db.targets then { db with targets := targetsRemove db.targets path } else db
  if mapHasKey db1.files path then .ok { db1 with files := mapErase db1.files path }
  else .error (.keyError path)

/-- Model of `FileDB.changed_files`: walk the files map in order and keep
the paths whose currently observed stat differs from the recorded one;
observing a recorded path that the cache cannot resolve raises (the
Python generator raises KeyError at that element when consumed; the model
collapses the lazy sequence into its full elaboration). -/
def FileDB.changed_files (db : FileDB) (fs : VFS) : Except Err (List Str) :=
  go db.files
where
  go : List (Str × Stat) → Except Err (List Str)
    | [] => .ok []
    | (p, st) :: rest =>
      match vfsFind fs p with
      | none => .error (.keyError p)
      | some vf =>
        match go rest with
        | .error e => .error e
        | .ok l => .ok (if vf.stat ≠ st then p :: l else l)

/-- Model of `FileDB.check`. -/
def FileDB.check (db : FileDB) (path : Str) (content : Str) : Except Err Bool :=
  match db.files.find? (fun q => q.1 = path) with
  | none => .error (.keyError path)
  | some q => .ok (hexdigest content = q.2.hexdigest)

def filedbPath : Str := ".entangled/filedb.json".data

/-- Model of `new_db` of io/filedb.py. -/
def new_db : FileDB := { version := entangledVersion, files := [], targets := [] }

/-- Length-prefixed string serialisation. -/
def encodeStr (s : Str) : Str := natDigits s.length ++ [':'] ++ s

def encodeNat (n : Nat) : Str := natDigits n ++ [';']

def encodeStat (st : Stat) : Str :=
  encodeNat st.mtime ++ encodeNat st.size ++ encodeStr st.hexdigest

/-- Modelled from the spec: serialisation of the database
(msgspec.json.encode with sorted field order in the source; any fixed
reversible format carries the claims). -/
def encodeFileDB (db : FileDB) : Str :=
  encodeStr db.version ++
  encodeNat db.files.length ++
  (db.files.map (fun q => encodeStr q.1 ++ encodeStat q.2)).flatten ++
  encodeNat db.targets.length ++
  (db.targets.map encodeStr).flatten

def parseNat (s : Str) : Option (Nat × Str) :=
  let ds := s.takeWhile Char.isDigit
  if ds = [] then none
  else
    match s.drop ds.length with
    | ';' :: rest => some (digitsToNat ds, rest)
    | _ => none

def parseStr (s : Str) : Option (Str × Str) :=
  let ds := s.takeWhile Char.isDigit
  if ds = [] then none
  else
    match s.drop ds.length with
    | ':' :: rest =>
      let n := digitsToNat ds
      if n ≤ rest.length then some (rest.take n, rest.drop n) else none
    | _ => none

def parseStat (s : Str) : Option (Stat × Str) :=
  match parseNat s with
  | none => none
  | some (m, s1) =>
    match parseNat s1 with
    | none => none
    | some (sz, s2) =>
      match parseStr s2 with
      | none => none
      | some (h, s3) => some ({ mtime := m, size := sz, hexdigest := h }, s3)

def parseFileEntries : Nat → Str → Option (List (Str × Stat) × Str)
  | 0, s => some ([], s)
  | n + 1, s =>
    match parseStr s with
    | none => none
    | some (p, s1) =>
      match parseStat s1 with
      | none => none
      | some (st, s2) =>
        match parseFileEntries n s2 with
        | none => none
        | some (l, s3) => some ((p, st) :: l, s3)

def parseTargets : Nat → Str → Option (List Str × Str)
  | 0, s => some ([], s)
  | n + 1, s =>
    match parseStr s with
    | none => none
    | some (p, s1) =>
      match parseTargets n s1 with
      | none => none
      | some (l, s2) => some (p :: l, s2)

/-- Modelled from the spec: reading the stored database back.  `none`
stands for content whose version cannot be extracted (JSON decode error
or missing version key, both uncaught in the source); `some (v, none)`
stands for a readable version with a payload that fails validation
(msgspec.ValidationError, uncaught); `some (v, some payload)` is a fully
valid database. -/
def decodeFileDB (s : Str) : Option (Str × Option (List (Str × Stat) × List Str)) :=
  match parseStr s with
  | none => none
  | some (v, s1) =>
    some (v,
      match parseNat s1 with
      | none => none
      | some (n, s2) =>
        match parseFileEntries n s2 with
        | none => none
        | some (fls, s3) =>
          match parseNat s3 with
          | none => none
          | some (tn, s4) =>
            match parseTargets tn s4 with
            | none => none
            | some (tgs, s5) => if s5 = [] then some (fls, tgs) else none)

/-- Version-mismatch message of `read_filedb`, with its remediation
hint. -/
def mismatchMsg (v : Str) : Str :=
  ("File database was created with a different version of Entangled (".data) ++ v ++
  (").\nRun `entangled reset` to regenerate the database to version ".data) ++
  entangledVersion ++ (".".data)

/-- Model of `read_filedb` of io/filedb.py: a fresh database when no file
is stored; a version check on the raw stored value before full decoding;
the decoded database on a version match.  The warning pass over undead
files only logs and does not affect the result. -/
def read_filedb (fs : VFS) : Except Err FileDB :=
  match vfsFind fs filedbPath with
  | none => .ok new_db
  | some vf =>
    match decodeFileDB vf.content with
    | none => .error .jsonDecodeError
    | some (v, payload) =>
      if v ≠ entangledVersion then .error (.helpfulUserError (mismatchMsg v))
      else
        match payload with
        | none => .error .validationError
        | some q => .ok { version := v, files := q.1, targets := q.2 }

/-- Model of `write_filedb` of io/filedb.py. -/
def write_filedb (db : FileDB) (fs : VFS) : VFS :=
  vfsWrite fs filedbPath (encodeFileDB db)

/-- Model of the `filedb` context manager of io/filedb.py.  The body of
the `with` statement is the function `k`; the result is the database
after the body together with the file cache after exit.  The advisory
lock has no single-process effect and is not modelled. -/
def filedb (readonly writeonly virtual : Bool) (fs : VFS) (k : FileDB → FileDB) :
    Except Err (FileDB × VFS) :=
  if virtual then .ok (k new_db, fs)
  else
    match (if writeonly then .ok new_db else read_filedb fs) with
    | .error e => .error e
    | .ok db =>
      let db2 := k db
      if readonly then .ok (db2, fs)
      else .ok (db2, write_filedb db2 fs)

/-- Subset invariant of the file database: every target path is a key of
the files map. -/
def dbInv (db : FileDB) : Bool := db.targets.all (fun p => mapHasKey db.files p)

/-! ## Configuration loading of config/__init__.py

The TOML surface is external (Python tomllib): the parse from raw text to
a TOML value is taken as a parameter, and the value domain is embedded as
a small inductive.  The msgspec conversion to `ConfigUpdate`
(config/config_update.py, not under src/) is modelled from the spec:
recognised fields are decoded by shape and unknown fields are
rejected. -/

/-- TOML value domain (fragment sufficient for the configuration). -/
inductive Toml where
  | table : List (Str × Toml) → Toml
  | text : Str → Toml
  | num : Int → Toml
  | boolean : Bool → Toml
  | arr : List Toml → Toml

/-- Lookup of a key in a TOML table. -/
def tomlLookup : List (Str × Toml) → Str → Option Toml
  | [], _ => none
  | (k, v) :: rest, s => if k = s then some v else tomlLookup rest s

/-- Python subscription chain `json[s]` for each dotted component: a
missing key raises KeyError, subscription of a non-table value raises
TypeError. -/
def getSection : Toml → List Str → Except Err Toml
  | t, [] => .ok t
  | .table es, s :: rest =>
    match tomlLookup es s with
    | some t2 => getSection t2 rest
    | none => .error (.keyError s)
  | _, _ :: _ => .error .typeError

/-- Modelled from the spec: the partial configuration override
(config/config_update.py, not under src/), restricted to the recognised
fields the spec names. -/
structure ConfigUpdate where
  version : Option Str
  watch_list : Option (List Str)
  ignore_list : Option (List Str)
  annotation : Option Str
  hooks : Option (List Str)
deriving DecidableEq, Repr

def emptyUpdate : ConfigUpdate :=
  { version := none, watch_list := none, ignore_list := none,
    annotation := none, hooks := none }

def tomlStr : Toml → Option Str
  | .text s => some s
  | _ => none

def tomlStrList : Toml → Option (List Str)
  | .arr l => l.foldr (fun t acc =>
      match tomlStr t, acc with
      | some s, some l2 => some (s :: l2)
      | _, _ => none) (some [])
  | _ => none

/-- Modelled from the spec: msgspec conversion of a decoded TOML value to
a `ConfigUpdate`; a non-table value, an unknown field, or a field of the
wrong shape fails validation. -/
def convertConfigUpdate : Toml → Option ConfigUpdate
  | .table es => go es emptyUpdate
  | _ => none
where
  go : List (Str × Toml) → ConfigUpdate → Option ConfigUpdate
    | [], u => some u
    | (k, v) :: rest, u =>
      if k = ("version".data) then
        match tomlStr v with
        | some s => go rest { u with version := some s }
        | none => none
      else if k = ("watch_list".data) then
        match tomlStrList v with
        | some l => go rest { u with watch_list := some l }
        | none => none
      else if k = ("ignore_list".data) then
        match tomlStrList v with
        | some l => go rest { u with ignore_list := some l }
        | none => none
      else if k = ("annotation".data) then
        match tomlStr v with
        | some s =>
          if s = ("none".data) || s = ("standard".data) || s = ("naked".data) then
            go rest { u with annotation := some s }
          else none
        | none => none
      else if k = ("hooks".data) then
        match tomlStrList v with
        | some l => go rest { u with hooks := some l }
        | none => none
      else none

/-- Model of `read_config_from_toml` of config/__init__.py.  `parse`
stands for `tomllib.loads`, returning `none` on a TOML decode error.
The try block covers parsing, section walking and conversion; TOML
decode errors and validation errors are converted to HelpfulUserError,
a KeyError from the section walk is caught and gives None, and a
TypeError propagates. -/
def read_config_from_toml (parse : Str → Option Toml) (fs : VFS) (path : Str)
    (sectionQ : Option Str) : Except Err (Option ConfigUpdate) :=
  match vfsFind fs path with
  | none => .ok none
  | some vf =>
    match parse vf.content with
    | none => .error (.helpfulUserError ("Could not read config: TOML decode error".data))
    | some t =>
      let secs := match sectionQ with | none => [] | some s => splitOnChar '.' s
      match getSection t secs with
      | .error (.keyError _) => .ok none
      | .error e => .error e
      | .ok t2 =>
        match convertConfigUpdate t2 with
        | none => .error (.helpfulUserError ("Could not read config: validation error".data))
        | some u => .ok (some u)

/-- Model of `read_config` of config/__init__.py: whole-file configuration
from ./entangled.toml when present, else the tool.entangled section of
./pyproject.toml when present, else nothing. -/
def read_config (parse : Str → Option Toml) (fs : VFS) :
    Except Err (Option ConfigUpdate) :=
  if vfsMem fs ("entangled.toml".data) then
    read_config_from_toml parse fs ("entangled.toml".data) none
  else if vfsMem fs ("pyproject.toml".data) then
    read_config_from_toml parse fs ("pyproject.toml".data) (some ("tool.entangled".data))
  else .ok none

/-- Concrete location constructor for witnesses of the reader claims. -/
def mkLoc (n : Nat) : TextLocation := { file := "t.py".data, line := n }

/-- Open-marker data of the outer init block of the reader witnesses. -/
def c1bdOuter : OpenBlockData :=
  ⟨⟨⟨[], "outer".data⟩, "d.md".data, 0⟩, true, []⟩

/-- Open-marker data of the nested numeric-ordinal block of the reader
witnesses. -/
def c1bdInner : OpenBlockData :=
  ⟨⟨⟨[], "inner".data⟩, "d.md".data, 0⟩, false, []⟩

/-! ## The tangle/stitch pipeline around the back-reader (claim C2)

The Markdown reader, the reference map, the tangler and the stitcher are
code of this repository that is not under src/; they are modelled from
the spec (sections 4.3, 4.4, 4.5 and 4.7).  The model fixes one source
document and the line-comment syntax of the tangled language to open
marker "#" with an empty comment-close, and represents a document as its
sequence of labelled blocks: a block has a name, an optional target path
(the `file=` attribute making it an init block) and a zero-indented
newline-terminated content.  Ordinals count earlier blocks with the same
name in document order.  The tangler expands an init block's content,
bracketing each expanded named non-init block with the annotation
markers of section 4.5; expansion depth is driven by a fuel argument two
beyond the block count, enough for every acyclic document.  The stitcher
locates each back-read block by (name, source path, ordinal) and
replaces the corresponding Markdown block's content. -/

/-- Modelled from the spec: one labelled code block of a Markdown
document. -/
structure MdBlock where
  name : Str
  target : Option Str
  content : Str
deriving DecidableEq, Repr

/-- Modelled from the spec: a Markdown document, reduced to its path and
its labelled blocks in document order. -/
structure MdDoc where
  path : Str
  blocks : List MdBlock
deriving DecidableEq, Repr

/-- Count of blocks with a given name (used for ordinals). -/
def countName (bs : List MdBlock) (n : Str) : Nat :=
  (bs.filter (fun b => b.name = n)).length

def withOrdsAux (seen : List MdBlock) : List MdBlock → List (MdBlock × Nat)
  | [] => []
  | b :: rest => (b, countName seen b.name) :: withOrdsAux (seen ++ [b]) rest

/-- Modelled from the spec: every block paired with its ordinal, the
count of prior blocks sharing its name. -/
def withOrds (bs : List MdBlock) : List (MdBlock × Nat) := withOrdsAux [] bs

/-- Modelled from the spec: the reference map entry for a name — all
blocks with that name, with ordinals, in document order. -/
def blocksOf (d : MdDoc) (n : Str) : List (MdBlock × Nat) :=
  (withOrds d.blocks).filter (fun bj => bj.1.name = n)

def isSpTab (c : Char) : Bool := c = ' ' || c = '\t'

/-- Modelled from the spec: recognition of a noweb reference line — a
line whose trimmed form is exactly the reference in double angle
brackets, the leading whitespace being its indentation. -/
def parseRefLine (l : Str) : Option (Str × Str) :=
  let ws := l.takeWhile isSpTab
  let r := l.dropWhile isSpTab
  let core := (r.reverse.dropWhile pySpace).reverse
  if ("<<".data).isPrefixOf core && (">>".data).isSuffixOf core &&
      decide (4 < core.length) then
    let mid := (core.drop 2).take (core.length - 4)
    if mid.all (fun c => !(c = '<' || c = '>' || c = '\n')) then some (ws, mid)
    else none
  else none

/-- Lines of a block content: the split of the line iterator without the
empty remainder after a final newline. -/
def mdLines (t : Str) : List Str :=
  let ps := linesSplit t
  if ps.getLast? = some [] then ps.dropLast else ps

/-- Modelled from the spec: the opening annotation marker of section 4.5
for comment syntax ("#", ""). -/
def mkOpenMarker (indent : Str) (path nm : Str) (j : Nat) : Str :=
  indent ++ ("# ~/~ begin <<".data) ++ path ++ ['#'] ++ nm ++
    (">>[".data) ++ natDigits j ++ ("] ".data) ++ ['\n']

/-- Modelled from the spec: the closing annotation marker. -/
def mkCloseMarker (indent : Str) : Str := indent ++ ("# ~/~ end ".data) ++ ['\n']

/-- Expansion of a run of blocks for one reference occurrence: init
blocks expand bare, named non-init blocks are bracketed by markers. -/
def expBlocksWith (exp : Str → Str → Option Str) (d : MdDoc) (indent : Str) :
    List (MdBlock × Nat) → Option Str
  | [] => some []
  | bj :: rest =>
    match exp indent bj.1.content, expBlocksWith exp d indent rest with
    | some body, some r =>
      if bj.1.target.isSome then some (body ++ r)
      else some (mkOpenMarker indent d.path bj.1.name bj.2 ++ body ++
        mkCloseMarker indent ++ r)
    | _, _ => none

/-- Expansion of content lines: plain lines receive the enclosing indent,
reference lines expand every block of the referenced name (an undefined
name fails). -/
def expLinesWith (exp : Str → Str → Option Str) (d : MdDoc) (indent : Str) :
    List Str → Option Str
  | [] => some []
  | l :: ls =>
    match parseRefLine l with
    | none =>
      match expLinesWith exp d indent ls with
      | some r => some (indent ++ l ++ r)
      | none => none
    | some (ws, n) =>
      match blocksOf d n with
      | [] => none
      | b :: bs =>
        match expBlocksWith exp d (indent ++ ws) (b :: bs),
            expLinesWith exp d indent ls with
        | some x, some r => some (x ++ r)
        | _, _ => none

/-- Modelled from the spec: recursive noweb expansion of a content
string, fuel bounding the reference nesting depth. -/
def expandContent (d : MdDoc) : Nat → Str → Str → Option Str
  | 0, _, _ => none
  | f + 1, indent, content =>
    expLinesWith (expandContent d f) d indent (mdLines content)

def tangleTargets (d : MdDoc) : List MdBlock → Option (List (Str × Str))
  | [] => some []
  | b :: rest =>
    match b.target with
    | none => tangleTargets d rest
    | some p =>
      match expandContent d (d.blocks.length + 2) [] b.content,
          tangleTargets d rest with
      | some txt, some r => some ((p, txt) :: r)
      | _, _ => none

/-- Modelled from the spec: tangling a document — the text of every
declared target file. -/
def tangleDoc (d : MdDoc) : Option (List (Str × Str)) := tangleTargets d d.blocks

/-- Back-reading every tangled file through the src back-reader. -/
def backreadAll : List (Str × Str) → Except Err (List Block)
  | [] => .ok []
  | (p, txt) :: rest =>
    match read_top_level (numbered_lines p txt), backreadAll rest with
    | .ok bs, .ok r => .ok (bs ++ r)
    | .error e, _ => .error e
    | _, .error e => .error e

/-- Modelled from the spec: the stitcher — every Markdown block found by
(name, source path, ordinal-within-source) among the back-read blocks
has its content replaced by the back-read content. -/
def stitchDoc (d : MdDoc) (bs : List Block) : MdDoc :=
  { d with blocks := (withOrds d.blocks).map (fun bj =>
      match bs.find? (fun blk =>
          decide (blk.reference_id.name = ReferenceName.from_str bj.1.name) &&
          decide (blk.reference_id.source = d.path) &&
          decide (blk.reference_id.ref_count = bj.2)) with
      | some blk => { bj.1 with content := blk.content }
      | none => bj.1) }

/-- Stitching the tangled output of a document back onto it. -/
def roundTrip (d : MdDoc) : Option MdDoc :=
  match tangleDoc d with
  | none => none
  | some files =>
    match backreadAll files with
    | .error _ => none
    | .ok bs => some (stitchDoc d bs)

/-- Claim hypothesis: every noweb reference line names a defined block. -/
def noUndefinedRefs (d : MdDoc) : Bool :=
  d.blocks.all (fun b => (mdLines b.content).all (fun l =>
    match parseRefLine l with
    | none => true
    | some q => !(blocksOf d q.2).isEmpty))

def distinctStrs : List Str → Bool
  | [] => true
  | s :: rest => !(rest.contains s) && distinctStrs rest

/-- Claim hypothesis: no target path receives two init declarations. -/
def noDupInit (d : MdDoc) : Bool :=
  distinctStrs (d.blocks.filterMap (fun b => b.target))

def pathCharB (c : Char) : Bool :=
  !(pySpace c || c = '#' || c = '<' || c = '>')

def nameCharB (c : Char) : Bool :=
  !(pySpace c || c = '#' || c = '<' || c = '>' || c = '.')

/-- Safe ordinary content line: a bare newline, or a line with visible
content and no annotation-marker text. -/
def lineOKB (l : Str) : Bool :=
  (l = ['\n'] : Bool) ||
  (l.any (fun c => !pySpace c) &&
   !containsSub l ("~/~ begin".data) && !containsSub l ("~/~ end".data))

def refLineOKB (d : MdDoc) (b : MdBlock) (l : Str) : Bool :=
  match parseRefLine l with
  | none => lineOKB l
  | some q =>
    b.target.isSome && !(blocksOf d q.2).isEmpty &&
    (blocksOf d q.2).all (fun bj => bj.1.target = none)

def nlTerminatedB (c : Str) : Bool := c.isEmpty || (c.getLast? = some '\n' : Bool)

/-- Well-formedness of a document for the amended round-trip statement:
marker-safe path and block names, newline-terminated contents, safe
content lines, references only from init blocks and only to defined
non-init blocks, and distinct target declarations. -/
def roundTripWF (d : MdDoc) : Bool :=
  !d.path.isEmpty && d.path.all pathCharB &&
  noDupInit d &&
  d.blocks.all (fun b =>
    !b.name.isEmpty && b.name.all nameCharB &&
    nlTerminatedB b.content &&
    (mdLines b.content).all (refLineOKB d b))

/-- Segment view of a tangled file: a discarded top-level plain line, or
one annotated chunk. -/
inductive Seg where
  | plain (l : Str)
  | chunk (indent : Str) (nm : Str) (j : Nat) (c : Str)
deriving DecidableEq, Repr

def segLines (path : Str) : Seg → List Str
  | .plain l => [l]
  | .chunk indent nm j c =>
    mkOpenMarker indent path nm j :: (mdLines c).map (indent ++ ·) ++
      [mkCloseMarker indent]

def segBlocks (path : Str) : Seg → List Block
  | .plain _ => []
  | .chunk _ nm j c => [⟨⟨ReferenceName.from_str nm, path, j⟩, c⟩]

/-- Segments of the tangled expansion of an init content. -/
def segsOf (d : MdDoc) (c : Str) : List Seg :=
  (mdLines c).flatMap (fun l =>
    match parseRefLine l with
    | none => [Seg.plain l]
    | some q => (blocksOf d q.2).map (fun bj =>
        Seg.chunk q.1 bj.1.name bj.2 bj.1.content))

/-- Document refuting C2 as frozen: an init block referencing a block
that itself references another block.  All references are defined and no
target is declared twice. -/
def C2D0 : MdDoc :=
  { path := "d.md".data,
    blocks := [ ⟨"f".data, some ("out.txt".data), "<<x>>\n".data⟩,
                ⟨"x".data, none, "<<y>>\n".data⟩,
                ⟨"y".data, none, "hi\n".data⟩ ] }

/-- A line as the splitter produces inside a newline-terminated text: it
ends in a newline and has no interior newline. -/
def singleNlB (l : Str) : Bool :=
  l.dropLast.all (fun c => !(c = '\n')) && (l.getLast? = some '\n' : Bool)

/-- The string appended to `content_parts` by the interior loop for an
ordinary line: a blank line keeps only its stripped tail, any other line
loses the block indent. -/
def chunkStrip (I line : Str) : Str :=
  if pyIsBlank line then pyLstripSpTab line else pyDropPre I line

/-- The text of one tangled segment. -/
def segText (path : Str) (s : Seg) : Str := (segLines path s).flatten

/-- Side conditions letting the back-reader traverse one segment. -/
def SegWF (path : Str) : Seg → Prop
  | .plain l => open_block l = none ∧ singleNlB l = true
  | .chunk I nm j c =>
      (∀ ch ∈ I, isSpTab ch = true) ∧
      ¬path = [] ∧ (∀ ch ∈ path, pathCharB ch = true) ∧
      ¬nm = [] ∧ (∀ ch ∈ nm, nameCharB ch = true) ∧
      nlTerminatedB c = true ∧ (∀ l ∈ mdLines c, lineOKB l = true) ∧
      (j = j)

/-- The tangled output as a function of the document: one file per init
block, its text the flattened segment expansion. -/
def tangleSpec (d : MdDoc) : List MdBlock → List (Str × Str)
  | [] => []
  | b :: rest =>
    match b.target with
    | none => tangleSpec d rest
    | some p =>
      (p, ((segsOf d b.content).map (segText d.path)).flatten) :: tangleSpec d rest

/-- Witness document for the amended round trip: one target file whose
init block mixes plain text, a blank line and a reference expanded by two
same-named non-init blocks. -/
def C2D2 : MdDoc :=
  { path := "d.md".data,
    blocks := [ ⟨"f".data, some ("out.txt".data), "top\n<<x>>\nbottom\n".data⟩,
                ⟨"x".data, none, "hi\n\nthere\n".data⟩,
                ⟨"x".data, none, "more\n".data⟩ ] }

theorem splitOnChar_ne_nil (sep : Char) (s : Str) : splitOnChar sep s ≠ [] := by
  induction s with
  | nil => simp [splitOnChar]
  | cons c rest ih =>
    simp only [splitOnChar]
    split
    · simp
    · split <;> simp_all

theorem readLoopF_eq (f : Nat) (bd : OpenBlockData) (ns : List Str) (indent : Str)
    (lastPos : TextLocation) (acc : List Str) (input : List Tok)
    (h : input.length < f) :
    readLoopF f bd ns indent lastPos acc input =
      some (runLoop bd ns indent lastPos acc input) := by
  induction f generalizing bd ns indent lastPos acc input with
  | zero => omega
  | succ f ih =>
    match input with
    | [] =>
      simp [readLoopF, runLoop, readLoop, Except.map]
    | (pos, line) :: rest =>
      have hrest : rest.length < f := by
        simp only [List.length_cons] at h; omega
      simp only [readLoopF, runLoop]
      rw [readLoop.eq_def]
      cases hob : open_block line with
      | some bd2 =>
        simp only [hob]
        by_cases hlt : pyStrLt bd2.indent bd.indent
        · simp [hlt, Except.map]
        · simp only [hlt, Bool.false_eq_true, ite_false]
          rw [ih bd2 bd.ref.name.nspace bd.indent pos [] rest hrest]
          simp only [runLoop]
          cases hn : readLoop bd2 bd.ref.name.nspace bd.indent pos [] rest with
          | error e => simp [Except.map]
          | ok r =>
            obtain ⟨bs, s, rest1, h1⟩ := r
            simp only [Except.map]
            rw [ih bd ns indent lastPos (acc ++ [s]) rest1 (by omega)]
            simp only [runLoop]
            cases hc : readLoop bd ns indent lastPos (acc ++ [s]) rest1 with
            | error e => simp [Except.map]
            | ok r2 =>
              obtain ⟨bs2, s2, rest2, h2⟩ := r2
              simp [Except.map]
      | none =>
        simp only [hob]
        cases hcb : close_block line with
        | none =>
          simp only [hcb]
          by_cases hbl : pyIsBlank line
          · simp only [hbl, ite_true]
            rw [ih bd ns indent pos (acc ++ [pyLstripSpTab line]) rest hrest]
            simp only [runLoop]
            cases hr : readLoop bd ns indent pos (acc ++ [pyLstripSpTab line]) rest with
            | error e => simp [Except.map]
            | ok r =>
              obtain ⟨bs, s, rest1, h1⟩ := r
              simp [Except.map]
          · by_cases hsw : pyStartsWith bd.indent line
            · simp only [hbl, hsw, Bool.not_true, Bool.false_eq_true, ite_false]
              rw [ih bd ns indent pos (acc ++ [pyDropPre bd.indent line]) rest hrest]
              simp only [runLoop]
              cases hr : readLoop bd ns indent pos (acc ++ [pyDropPre bd.indent line]) rest with
              | error e => simp [Except.map]
              | ok r =>
                obtain ⟨bs, s, rest1, h1⟩ := r
                simp [Except.map]
            · simp [hbl, hsw, Except.map]
        | some cd =>
          simp only [hcb]
          by_cases hind : cd.indent = bd.indent
          · simp [hind, Except.map]
          · simp [hind, Except.map]

theorem read_top_levelF_eq (f : Nat) (input : List Tok) (h : input.length < f) :
    read_top_levelF f input = some (read_top_level input) := by
  induction f generalizing input with
  | zero => omega
  | succ f ih =>
    match input with
    | [] => simp [read_top_levelF, read_top_level]
    | (pos, line) :: rest =>
      have hrest : rest.length < f := by
        simp only [List.length_cons] at h; omega
      simp only [read_top_levelF]
      rw [read_top_level.eq_def]
      cases hob : open_block line with
      | none => simp only [hob]; exact ih rest hrest
      | some bd =>
        simp only [hob]
        by_cases hlt : pyStrLt bd.indent []
        · simp [hlt]
        · simp only [hlt, Bool.false_eq_true, ite_false]
          rw [readLoopF_eq (rest.length + 1) bd [] [] pos [] rest (by omega)]
          simp only [runLoop]
          cases hr : readLoop bd [] [] pos [] rest with
          | error e => simp [Except.map]
          | ok r =>
            obtain ⟨bs, s, rest1, h1⟩ := r
            simp only [Except.map]
            rw [ih rest1 (by omega)]
            cases ht : read_top_level rest1 with
            | error e => simp
            | ok bs2 => simp

/-! ## Theorems: the line iterator (claim C7) -/

theorem linesSplit_ne_nil (t : Str) : linesSplit t ≠ [] := by
  cases t with
  | nil => simp [linesSplit]
  | cons c rest =>
    simp only [linesSplit]
    split
    · simp
    · split <;> simp_all

theorem linesSplit_flatten (t : Str) : (linesSplit t).flatten = t := by
  induction t with
  | nil => simp [linesSplit]
  | cons c rest ih =>
    simp only [linesSplit]
    by_cases hc : c = '\n'
    · subst hc; simp [ih]
    · simp only [hc, ite_false]
      cases hr : linesSplit rest with
      | nil => exact absurd hr (linesSplit_ne_nil rest)
      | cons l ls =>
        rw [hr] at ih
        simp only [List.flatten_cons] at ih ⊢
        simp [ih]

theorem linesSplit_dropLast_newline (t : Str) :
    ∀ l ∈ (linesSplit t).dropLast, l.getLast? = some '\n' := by
  induction t with
  | nil => simp [linesSplit]
  | cons c rest ih =>
    intro l hl
    simp only [linesSplit] at hl
    split at hl
    · cases hr : linesSplit rest with
      | nil => exact absurd hr (linesSplit_ne_nil rest)
      | cons p ps =>
        rw [hr, List.dropLast_cons_of_ne_nil (by simp)] at hl
        rcases List.mem_cons.mp hl with h | h
        · subst h; rfl
        · exact ih l (by rw [hr]; exact h)
    · split at hl
      · rename_i hr
        exact absurd hr (linesSplit_ne_nil rest)
      · rename_i p ps hr
        cases hps : ps with
        | nil => subst hps; simp at hl
        | cons q qs =>
          subst hps
          rw [List.dropLast_cons_of_ne_nil (by simp)] at hl
          rcases List.mem_cons.mp hl with h | h
          · subst h
            have hp : p.getLast? = some '\n' := by
              apply ih
              rw [hr, List.dropLast_cons_of_ne_nil (by simp)]
              exact List.mem_cons_self _ _
            cases p with
            | nil => simp at hp
            | cons x xs => rw [List.getLast?_cons_cons]; exact hp
          · apply ih
            rw [hr, List.dropLast_cons_of_ne_nil (by simp)]
            exact List.mem_cons_of_mem _ h

/-- C7: the line iterator yields lines whose concatenation is exactly the
input, every yielded line except possibly the last ends in a newline
character, and numbered_lines attaches to the i-th line (0-based i) a
TextLocation with 1-based line number i+1. -/
theorem C7_line_iterator (filename text : Str) :
    (linesSplit text).flatten = text ∧
    (∀ l ∈ (linesSplit text).dropLast, l.getLast? = some '\n') ∧
    (∀ i : Nat, (numbered_lines filename text)[i]? =
      ((linesSplit text)[i]?).map
        (fun l => ({ file := filename, line := i + 1 }, l))) := by
  refine ⟨linesSplit_flatten text, linesSplit_dropLast_newline text, ?_⟩
  intro i
  simp [numbered_lines, List.getElem?_enum, Option.map_map]
  rfl

/-- Witness for C7 at a concrete two-line input. -/
theorem C7_line_iterator_witness :
    (("ab\n".data : Str).getLast? = some '\n') ∧
    (numbered_lines ("f.md".data) ("ab\ncd".data))[1]? =
      ((linesSplit ("ab\ncd".data))[1]?).map
        (fun l => ({ file := ("f.md".data), line := 2 }, l)) :=
  ⟨(C7_line_iterator ("f.md".data) ("ab\ncd".data)).2.1 ("ab\n".data) (by decide),
   (C7_line_iterator ("f.md".data) ("ab\ncd".data)).2.2 1⟩

/-! ## Theorems: file database invariant (claim C5) -/

theorem mapHasKey_exists (m : List (Str × Stat)) (q : Str) :
    mapHasKey m q = true ↔ ∃ st, (q, st) ∈ m := by
  simp only [mapHasKey, List.any_eq_true, decide_eq_true_eq]
  constructor
  · rintro ⟨⟨p, st⟩, hm, he⟩
    simp only at he
    subst he
    exact ⟨st, hm⟩
  · rintro ⟨st, hm⟩
    exact ⟨(q, st), hm, rfl⟩

theorem mapHasKey_insert_self (m : List (Str × Stat)) (k : Str) (v : Stat) :
    mapHasKey (mapInsert m k v) k = true := by
  induction m with
  | nil => simp [mapInsert, mapHasKey]
  | cons a tl ih =>
    simp only [mapInsert]
    by_cases h : a.1 = k
    · rw [if_pos h]
      simp [mapHasKey]
    · rw [if_neg h]
      simp only [mapHasKey, List.any_cons, Bool.or_eq_true]
      right
      simpa [mapHasKey] using ih

theorem mapHasKey_insert_mono (m : List (Str × Stat)) (k q : Str) (v : Stat)
    (h : mapHasKey m q = true) : mapHasKey (mapInsert m k v) q = true := by
  induction m with
  | nil => simp [mapHasKey] at h
  | cons a tl ih =>
    simp only [mapInsert]
    by_cases hk : a.1 = k
    · rw [if_pos hk]
      simp only [mapHasKey, List.any_cons, Bool.or_eq_true, decide_eq_true_eq] at h ⊢
      rcases h with h | h
      · left; exact hk.symm.trans h
      · right; exact h
    · rw [if_neg hk]
      simp only [mapHasKey, List.any_cons, Bool.or_eq_true, decide_eq_true_eq] at h ⊢
      rcases h with h | h
      · left; exact h
      · right
        have := ih (by simpa [mapHasKey] using h)
        simpa [mapHasKey] using this

theorem mapHasKey_erase_mono (m : List (Str × Stat)) (k q : Str)
    (h1 : mapHasKey m q = true) (h2 : q ≠ k) :
    mapHasKey (mapErase m k) q = true := by
  rw [mapHasKey_exists] at h1 ⊢
  obtain ⟨st, hm⟩ := h1
  exact ⟨st, List.mem_filter.mpr ⟨hm, by simp [h2]⟩⟩

theorem mem_targetsAdd (l : List Str) (k q : Str) (h : q ∈ targetsAdd l k) :
    q ∈ l ∨ q = k := by
  simp only [targetsAdd] at h
  split at h
  · left; exact h
  · rcases List.mem_append.mp h with h2 | h2
    · left; exact h2
    · right; simpa using h2

/-- C5 (amended): `update`, deletion and `clear` preserve the invariant
that every target path is a key of the files map; `create_target`
preserves it provided the normalised path resolves in the file cache or
is already recorded in the files map.  (Unconditional preservation by
`create_target` fails: see the counterexample.) -/
theorem C5_filedb_invariant (cwd : Str) (fs : VFS) (db : FileDB) (p : Str)
    (hinv : dbInv db = true) :
    dbInv (FileDB.clear db) = true ∧
    dbInv (FileDB.update cwd fs db p) = true ∧
    (∀ db2, FileDB.delitem db p = .ok db2 → dbInv db2 = true) ∧
    (normPath cwd (normPath cwd p) = normPath cwd p →
      (vfsMem fs (normPath cwd p) = true ∨ mapHasKey db.files (normPath cwd p) = true) →
      dbInv (FileDB.create_target cwd fs db p) = true) := by
  simp only [dbInv, List.all_eq_true, decide_eq_true_eq] at hinv
  refine ⟨by simp [FileDB.clear, dbInv], ?_, ?_, ?_⟩
  · simp only [FileDB.update]
    cases hv : vfsFind fs (normPath cwd p) with
    | none => simp only [dbInv, List.all_eq_true, decide_eq_true_eq]; exact hinv
    | some vf =>
      simp only [dbInv, List.all_eq_true, decide_eq_true_eq]
      intro q hq
      exact mapHasKey_insert_mono _ _ _ _ (hinv q hq)
  · intro db2 hdel
    simp only [FileDB.delitem] at hdel
    by_cases hp : p ∈ db.targets
    · rw [if_pos hp] at hdel
      split at hdel
      · rename_i hhas
        simp only [Except.ok.injEq] at hdel
        subst hdel
        simp only [dbInv, List.all_eq_true, decide_eq_true_eq]
        intro q hq
        simp only [targetsRemove, List.mem_filter, decide_eq_true_eq,
          decide_not, ne_eq, Bool.not_eq_eq_eq_not, Bool.not_false] at hq
        have hqp : q ≠ p := by
          intro he
          have := hq.2
          simp [he] at this
        exact mapHasKey_erase_mono _ _ _ (hinv q hq.1) hqp
      · exact absurd hdel (by simp)
    · rw [if_neg hp] at hdel
      split at hdel
      · rename_i hhas
        simp only [Except.ok.injEq] at hdel
        subst hdel
        simp only [dbInv, List.all_eq_true, decide_eq_true_eq]
        intro q hq
        have hqp : q ≠ p := fun he => hp (he ▸ hq)
        exact mapHasKey_erase_mono _ _ _ (hinv q hq) hqp
      · exact absurd hdel (by simp)
  · intro hidem hmem
    simp only [FileDB.create_target, FileDB.update, hidem]
    cases hv : vfsFind fs (normPath cwd p) with
    | some vf =>
      simp only [dbInv, List.all_eq_true, decide_eq_true_eq]
      intro q hq
      rcases mem_targetsAdd _ _ _ hq with h | h
      · exact mapHasKey_insert_mono _ _ _ _ (hinv q h)
      · subst h
        exact mapHasKey_insert_self _ _ _
    | none =>
      rcases hmem with h | h
      · simp [vfsMem, hv] at h
      · simp only [dbInv, List.all_eq_true, decide_eq_true_eq]
        intro q hq
        rcases mem_targetsAdd _ _ _ hq with h2 | h2
        · exact hinv q h2
        · subst h2; exact h

/-- Witness for C5 at a concrete database and cache. -/
theorem C5_filedb_invariant_witness :
    dbInv (FileDB.create_target ("cwd".data)
      [(("a.txt".data), ⟨[], ⟨0, 0, []⟩⟩)]
      new_db ("a.txt".data)) = true :=
  (C5_filedb_invariant ("cwd".data) _ new_db ("a.txt".data) (by decide)).2.2.2
    (by decide) (Or.inl (by decide))

/-- Counterexample for C5 as frozen: on a database satisfying the
invariant, create_target for a path that the file cache cannot resolve
adds the path to targets without recording it in files, breaking the
invariant. -/
theorem C5_counterexample :
    dbInv new_db = true ∧
    dbInv (FileDB.create_target ("cwd".data) [] new_db ("a.txt".data)) = false := by
  constructor
  · decide
  · decide

/-! ## Theorems: reading the stored database (claim C6) -/

theorem containsSub_append_right (x y pat : Str) (h : containsSub y pat = true) :
    containsSub (x ++ y) pat = true := by
  induction x with
  | nil => simpa using h
  | cons c xs ih =>
    simp only [List.cons_append, containsSub, Bool.or_eq_true]
    right
    exact ih

/-- C6: read_filedb returns a fresh empty database when no database file
is stored; it raises HelpfulUserError — whose message carries the
`entangled reset` remediation hint — exactly when the stored content has
a readable version field differing from the running tool version; and on
a version match the stored database is decoded and returned. -/
theorem C6_read_filedb (fs : VFS) :
    (vfsMem fs filedbPath = false → read_filedb fs = .ok new_db) ∧
    (∀ vf, vfsFind fs filedbPath = some vf →
      ((∃ m, read_filedb fs = .error (.helpfulUserError m)) ↔
        (∃ v payload, decodeFileDB vf.content = some (v, payload) ∧
          v ≠ entangledVersion))) ∧
    (∀ vf v payload, vfsFind fs filedbPath = some vf →
      decodeFileDB vf.content = some (v, payload) → v ≠ entangledVersion →
      read_filedb fs = .error (.helpfulUserError (mismatchMsg v)) ∧
        containsSub (mismatchMsg v) ("entangled reset".data) = true) ∧
    (∀ vf fls tgs, vfsFind fs filedbPath = some vf →
      decodeFileDB vf.content = some (entangledVersion, some (fls, tgs)) →
      read_filedb fs = .ok ⟨entangledVersion, fls, tgs⟩) := by
  refine ⟨?_, ?_, ?_, ?_⟩
  · intro h
    cases hv : vfsFind fs filedbPath with
    | none => simp [read_filedb, hv]
    | some vf => simp [vfsMem, hv] at h
  · intro vf hvf
    cases hd : decodeFileDB vf.content with
    | none =>
      constructor
      · rintro ⟨m, hm⟩
        simp [read_filedb, hvf, hd] at hm
      · rintro ⟨v, payload, hp, _⟩
        exact absurd hp (by simp)
    | some vp =>
      obtain ⟨v, payload⟩ := vp
      by_cases hv : v = entangledVersion
      · subst hv
        constructor
        · rintro ⟨m, hm⟩
          cases payload with
          | none => simp [read_filedb, hvf, hd] at hm
          | some q => simp [read_filedb, hvf, hd] at hm
        · rintro ⟨v2, p2, hp, hne⟩
          rw [Option.some.injEq] at hp
          exact absurd (congrArg Prod.fst hp).symm (by simpa using hne)
      · constructor
        · intro _
          exact ⟨v, payload, rfl, hv⟩
        · intro _
          exact ⟨mismatchMsg v, by simp [read_filedb, hvf, hd, hv]⟩
  · intro vf v payload hvf hd hne
    refine ⟨by simp [read_filedb, hvf, hd, hne], ?_⟩
    have he : mismatchMsg v =
        ("File database was created with a different version of Entangled (".data) ++
          (v ++ ((").\nRun `entangled reset` to regenerate the database to version ".data) ++
            entangledVersion ++ (".".data))) := by
      simp [mismatchMsg, List.append_assoc]
    rw [he]
    apply containsSub_append_right
    apply containsSub_append_right
    decide
  · intro vf fls tgs hvf hd
    simp [read_filedb, hvf, hd]

/-- Witness for C6: a missing database file yields a fresh database, and a
stored database with version "1.0.0" raises the HelpfulUserError with the
reset hint. -/
theorem C6_read_filedb_witness :
    read_filedb [] = .ok new_db ∧
    (read_filedb [(filedbPath,
        ⟨encodeFileDB ⟨"1.0.0".data, [], []⟩, ⟨0, 0, []⟩⟩)] =
      .error (.helpfulUserError (mismatchMsg ("1.0.0".data))) ∧
      containsSub (mismatchMsg ("1.0.0".data)) ("entangled reset".data) = true) :=
  ⟨(C6_read_filedb []).1 (by decide),
   (C6_read_filedb [(filedbPath, ⟨encodeFileDB ⟨"1.0.0".data, [], []⟩, ⟨0, 0, []⟩⟩)]).2.2.1
     ⟨encodeFileDB ⟨"1.0.0".data, [], []⟩, ⟨0, 0, []⟩⟩ ("1.0.0".data) (some ([], []))
     (by rfl) (by rfl) (by decide)⟩

/-! ## Theorems: changed file detection (claim C8) -/

theorem changed_files_go_spec (fs : VFS) (m : List (Str × Stat))
    (hres : ∀ p st, (p, st) ∈ m → vfsMem fs p = true) :
    ∃ l, FileDB.changed_files.go fs m = .ok l ∧
      ∀ q, q ∈ l ↔ ∃ st vf, (q, st) ∈ m ∧ vfsFind fs q = some vf ∧ vf.stat ≠ st := by
  induction m with
  | nil =>
    refine ⟨[], rfl, ?_⟩
    simp
  | cons a tl ih =>
    obtain ⟨p, st⟩ := a
    have hm : vfsMem fs p = true := hres p st (by simp)
    cases hv : vfsFind fs p with
    | none => simp [vfsMem, hv] at hm
    | some vf =>
      obtain ⟨l, hgo, hspec⟩ := ih (fun q st2 hq => hres q st2 (by simp [hq]))
      by_cases hst : vf.stat = st
      · refine ⟨l, by simp [FileDB.changed_files.go, hv, hgo, hst], ?_⟩
        intro q
        rw [hspec q]
        constructor
        · rintro ⟨st2, vf2, hmem, hfind, hne⟩
          exact ⟨st2, vf2, List.mem_cons_of_mem _ hmem, hfind, hne⟩
        · rintro ⟨st2, vf2, hmem, hfind, hne⟩
          rcases List.mem_cons.mp hmem with he | he
          · exfalso
            apply hne
            rw [Prod.mk.injEq] at he
            obtain ⟨he1, he2⟩ := he
            rw [he1, hv] at hfind
            have hvv : vf = vf2 := Option.some.inj hfind
            rw [← hvv, hst, he2]
          · exact ⟨st2, vf2, he, hfind, hne⟩
      · refine ⟨p :: l, by simp [FileDB.changed_files.go, hv, hgo, hst], ?_⟩
        intro q
        constructor
        · intro hq
          rcases List.mem_cons.mp hq with he | hq2
          · subst he
            exact ⟨st, vf, List.mem_cons_self _ _, hv, hst⟩
          · obtain ⟨st2, vf2, hmem, hfind, hne⟩ := (hspec q).mp hq2
            exact ⟨st2, vf2, List.mem_cons_of_mem _ hmem, hfind, hne⟩
        · rintro ⟨st2, vf2, hmem, hfind, hne⟩
          rcases List.mem_cons.mp hmem with he | he
          · rw [Prod.mk.injEq] at he
            exact List.mem_cons.mpr (Or.inl he.1)
          · exact List.mem_cons.mpr (Or.inr ((hspec q).mpr ⟨st2, vf2, he, hfind, hne⟩))

/-- C8: when every recorded path resolves in the file cache,
changed_files succeeds and yields exactly the recorded paths whose
observed stat differs from the recorded one; paths with matching stats
and paths outside the files map are never yielded. -/
theorem C8_changed_files (db : FileDB) (fs : VFS)
    (hres : ∀ p st, (p, st) ∈ db.files → vfsMem fs p = true) :
    ∃ l, FileDB.changed_files db fs = .ok l ∧
      ∀ q, q ∈ l ↔ ∃ st vf, (q, st) ∈ db.files ∧ vfsFind fs q = some vf ∧
        vf.stat ≠ st :=
  changed_files_go_spec fs db.files hres

/-- Witness for C8 at a concrete database: the path with a divergent stat
is reported and the matching one is not. -/
theorem C8_changed_files_witness :
    ∃ l, FileDB.changed_files
        ⟨entangledVersion,
          [(("a".data), ⟨1, 1, "h1".data⟩), (("b".data), ⟨2, 2, "h2".data⟩)], []⟩
        [(("a".data), ⟨[], ⟨1, 1, "h1".data⟩⟩), (("b".data), ⟨[], ⟨9, 2, "h2".data⟩⟩)] = .ok l ∧
      ∀ q, q ∈ l ↔ ∃ st vf,
        (q, st) ∈ [(("a".data), (⟨1, 1, "h1".data⟩ : Stat)), (("b".data), ⟨2, 2, "h2".data⟩)] ∧
        vfsFind [(("a".data), ⟨[], ⟨1, 1, "h1".data⟩⟩), (("b".data), ⟨[], ⟨9, 2, "h2".data⟩⟩)] q = some vf ∧
        vf.stat ≠ st :=
  C8_changed_files
    ⟨entangledVersion,
      [(("a".data), ⟨1, 1, "h1".data⟩), (("b".data), ⟨2, 2, "h2".data⟩)], []⟩
    [(("a".data), ⟨[], ⟨1, 1, "h1".data⟩⟩), (("b".data), ⟨[], ⟨9, 2, "h2".data⟩⟩)]
    (by
      intro p st h
      rcases List.mem_cons.mp h with he | he
      · rw [Prod.mk.injEq] at he
        rw [he.1]
        decide
      · rcases List.mem_cons.mp he with he2 | he2
        · rw [Prod.mk.injEq] at he2
          rw [he2.1]
          decide
        · simp at he2)

/-! ## Theorems: the filedb context manager (claim C10) -/

/-- C10: opened virtual, the context manager yields a brand-new empty
database carrying the tool version and leaves the cache untouched
whatever its contents (so no read and no write happens); opened readonly
it reads, runs the body, and returns the cache unchanged; only a
non-readonly, non-virtual exit serialises the body's database to the
database path. -/
theorem C10_filedb_frame (fs : VFS) (k : FileDB → FileDB) :
    (∀ ro wo, filedb ro wo true fs k = .ok (k new_db, fs)) ∧
    (new_db = { version := entangledVersion, files := [], targets := [] }) ∧
    (filedb true false false fs k = (read_filedb fs).map (fun db => (k db, fs))) ∧
    (∀ db, read_filedb fs = .ok db →
      filedb false false false fs k =
        .ok (k db, vfsWrite fs filedbPath (encodeFileDB (k db)))) := by
  refine ⟨?_, rfl, ?_, ?_⟩
  · intro ro wo
    simp [filedb]
  · simp only [filedb, Bool.false_eq_true, ite_false]
    cases hr : read_filedb fs with
    | error e => simp [Except.map]
    | ok db => simp [Except.map]
  · intro db hdb
    simp [filedb, hdb, write_filedb]

/-- Witness for C10 on the empty cache: the read succeeds with the fresh
database and a read-write exit writes it back. -/
theorem C10_filedb_frame_witness :
    filedb false false false [] (fun db => db) =
      .ok (new_db, vfsWrite [] filedbPath (encodeFileDB new_db)) :=
  (C10_filedb_frame [] (fun db => db)).2.2.2 new_db (by rfl)

/-! ## Theorems: configuration precedence (claim C9) -/

/-- C9: read_config takes the whole decoded content of ./entangled.toml
when that file exists, the tool.entangled section of ./pyproject.toml
when only that file exists, and yields nothing when neither exists; a
TOML decode failure raises HelpfulUserError, a missing section yields
nothing, and a value failing validation raises HelpfulUserError. -/
theorem C9_read_config (parse : Str → Option Toml) (fs : VFS) :
    (vfsMem fs ("entangled.toml".data) = true →
      read_config parse fs =
        read_config_from_toml parse fs ("entangled.toml".data) none) ∧
    (vfsMem fs ("entangled.toml".data) = false →
      vfsMem fs ("pyproject.toml".data) = true →
      read_config parse fs =
        read_config_from_toml parse fs ("pyproject.toml".data)
          (some ("tool.entangled".data))) ∧
    (vfsMem fs ("entangled.toml".data) = false →
      vfsMem fs ("pyproject.toml".data) = false →
      read_config parse fs = .ok none) ∧
    (∀ path sq vf, vfsFind fs path = some vf → parse vf.content = none →
      read_config_from_toml parse fs path sq =
        .error (.helpfulUserError ("Could not read config: TOML decode error".data))) ∧
    (∀ path sq vf t s, vfsFind fs path = some vf → parse vf.content = some t →
      getSection t (match sq with | none => [] | some s2 => splitOnChar '.' s2) =
        .error (.keyError s) →
      read_config_from_toml parse fs path sq = .ok none) ∧
    (∀ path sq vf t t2, vfsFind fs path = some vf → parse vf.content = some t →
      getSection t (match sq with | none => [] | some s2 => splitOnChar '.' s2) = .ok t2 →
      convertConfigUpdate t2 = none →
      read_config_from_toml parse fs path sq =
        .error (.helpfulUserError ("Could not read config: validation error".data))) ∧
    (∀ path sq vf t t2 u, vfsFind fs path = some vf → parse vf.content = some t →
      getSection t (match sq with | none => [] | some s2 => splitOnChar '.' s2) = .ok t2 →
      convertConfigUpdate t2 = some u →
      read_config_from_toml parse fs path sq = .ok (some u)) := by
  refine ⟨?_, ?_, ?_, ?_, ?_, ?_, ?_⟩
  · intro h1
    simp [read_config, h1]
  · intro h1 h2
    simp [read_config, h1, h2]
  · intro h1 h2
    simp [read_config, h1, h2]
  · intro path sq vf hvf hp
    simp [read_config_from_toml, hvf, hp]
  · intro path sq vf t s hvf hp hsec
    simp [read_config_from_toml, hvf, hp, hsec]
  · intro path sq vf t t2 hvf hp hsec hconv
    simp [read_config_from_toml, hvf, hp, hsec, hconv]
  · intro path sq vf t t2 u hvf hp hsec hconv
    simp [read_config_from_toml, hvf, hp, hsec, hconv]

/-- Witness for C9: a cache holding only pyproject.toml with a
tool.entangled section, under a parse function returning that section. -/
theorem C9_read_config_witness :
    read_config
      (fun _ => some (Toml.table
        [(("tool".data), Toml.table
          [(("entangled".data), Toml.table
            [(("version".data), Toml.text ("2.0.0".data))])])]))
      [(("pyproject.toml".data), ⟨[], ⟨0, 0, []⟩⟩)] =
    .ok (some { version := some ("2.0.0".data), watch_list := none,
                ignore_list := none, annotation := none, hooks := none }) := by
  have h := C9_read_config
    (fun _ => some (Toml.table
      [(("tool".data), Toml.table
        [(("entangled".data), Toml.table
          [(("version".data), Toml.text ("2.0.0".data))])])]))
    [(("pyproject.toml".data), ⟨[], ⟨0, 0, []⟩⟩)]
  rw [h.2.1 (by rfl) (by rfl)]
  exact h.2.2.2.2.2.2 ("pyproject.toml".data) (some ("tool.entangled".data))
    ⟨[], ⟨0, 0, []⟩⟩
    (Toml.table
      [(("tool".data), Toml.table
        [(("entangled".data), Toml.table
          [(("version".data), Toml.text ("2.0.0".data))])])])
    (Toml.table [(("version".data), Toml.text ("2.0.0".data))])
    { version := some ("2.0.0".data), watch_list := none,
      ignore_list := none, annotation := none, hooks := none }
    (by rfl) (by rfl) (by rfl) (by rfl)

/-! ## Theorems: the back-reader (claims C1, C3, C4) -/

theorem runLoop_of_fuel (f : Nat) (bd : OpenBlockData) (ns : List Str) (indent : Str)
    (lastPos : TextLocation) (acc : List Str) (input : List Tok)
    (r : Except Err (List Block × Str × List Tok))
    (h : input.length < f)
    (hF : readLoopF f bd ns indent lastPos acc input = some r) :
    runLoop bd ns indent lastPos acc input = r := by
  rw [readLoopF_eq f bd ns indent lastPos acc input h] at hF
  exact Option.some.inj hF

theorem read_top_level_of_fuel (f : Nat) (input : List Tok)
    (r : Except Err (List Block)) (h : input.length < f)
    (hF : read_top_levelF f input = some r) :
    read_top_level input = r := by
  rw [read_top_levelF_eq f input h] at hF
  exact Option.some.inj hF

theorem read_block_eq_of_runLoop (ns : List Str) (indent : Str) (p1 : TextLocation)
    (l1 : Str) (rest : List Tok) (bd : OpenBlockData) (bs : List Block) (s : Str)
    (r : List Tok) (hob : open_block l1 = some bd)
    (hlt : pyStrLt bd.indent indent = false)
    (hrun : runLoop bd ns indent p1 [] rest = .ok (bs, s, r)) :
    read_block ns indent ((p1, l1) :: rest) = .ok (bs, some s, r) := by
  simp only [read_block, hob, hlt, Bool.false_eq_true, ite_false]
  simp only [runLoop] at hrun
  cases hn : readLoop bd ns indent p1 [] rest with
  | error e => rw [hn] at hrun; simp [Except.map] at hrun
  | ok v =>
    obtain ⟨bs2, s2, r2, hr2⟩ := v
    rw [hn] at hrun
    simp only [Except.map, Except.ok.injEq, Prod.mk.injEq] at hrun
    obtain ⟨hb, hs, hr⟩ := hrun
    subst hb hs hr
    rfl

/-- C1 (amended): when the interior loop of read_block meets a nested
open marker, the nested block interior is read recursively, its blocks
are yielded before the continuation of the parent, and the string
appended to the parent content stream is the generator return value of
the nested read; that value is the indented noweb placeholder exactly
when the nested marker ordinal is `init`, and the empty string for a
numeric ordinal.  (The frozen claim asserted the placeholder for every
nested block; the counterexample shows a numeric-ordinal nested block
contributing the empty string.) -/
theorem C1_nested_block (bd bd2 : OpenBlockData) (ns : List Str) (indent : Str)
    (lastPos pos : TextLocation) (acc : List Str) (line : Str) (rest : List Tok) :
    (open_block line = some bd2 → pyStrLt bd2.indent bd.indent = false →
      ∀ bs s rest1, runLoop bd2 bd.ref.name.nspace bd.indent pos [] rest = .ok (bs, s, rest1) →
      runLoop bd ns indent lastPos acc ((pos, line) :: rest) =
        (runLoop bd ns indent lastPos (acc ++ [s]) rest1).map
          (fun r => (bs ++ r.1, r.2.1, r.2.2))) ∧
    (open_block line = none → close_block line = some ⟨bd.indent⟩ →
      runLoop bd ns indent lastPos acc ((pos, line) :: rest) =
        .ok ([⟨bd.ref, acc.flatten⟩],
          (if bd.is_init then
            pyDropPre indent bd.indent ++ ("<<".data) ++
              (if bd.ref.name.nspace = ns then bd.ref.name.name
               else bd.ref.name.render) ++ (">>".data) ++ ['\n']
           else []), rest)) := by
  constructor
  · intro hob hlt bs s rest1 hrun
    simp only [runLoop] at hrun ⊢
    rw [readLoop.eq_def]
    simp only [hob, hlt, Bool.false_eq_true, ite_false]
    cases hn : readLoop bd2 bd.ref.name.nspace bd.indent pos [] rest with
    | error e => rw [hn] at hrun; simp [Except.map] at hrun
    | ok v =>
      obtain ⟨bs2, s2, r2, hr2⟩ := v
      rw [hn] at hrun
      simp only [Except.map, Except.ok.injEq, Prod.mk.injEq] at hrun
      obtain ⟨hb, hs, hr⟩ := hrun
      rw [← hb, ← hs, ← hr]
      simp only [runLoop]
      cases hc : readLoop bd ns indent lastPos (acc ++ [s2]) r2 with
      | error e => simp [Except.map, hc]
      | ok v2 =>
        obtain ⟨bs3, s3, r3, hr3⟩ := v2
        simp [Except.map, hc]
  · intro hob hcl
    simp only [runLoop]
    rw [readLoop.eq_def]
    simp only [hob, hcl]
    simp [Except.map]

/-- Witness for C1: the nested numeric-ordinal block contributes its
return value (the empty string) to the parent stream, and the init close
returns the placeholder. -/
theorem C1_nested_block_witness :
    (runLoop c1bdOuter [] [] (mkLoc 1) []
        ((mkLoc 2, ("# ~/~ begin <<d.md#inner>>[0]\n".data)) ::
          [(mkLoc 3, ("# ~/~ end\n".data)), (mkLoc 4, ("# ~/~ end\n".data))]) =
      (runLoop c1bdOuter [] [] (mkLoc 1) ([] ++ [([] : Str)])
          [(mkLoc 4, ("# ~/~ end\n".data))]).map
        (fun r => ([(⟨c1bdInner.ref, []⟩ : Block)] ++ r.1, r.2.1, r.2.2))) ∧
    runLoop c1bdOuter [] [] (mkLoc 1) [([] : Str)] [(mkLoc 4, ("# ~/~ end\n".data))] =
      .ok ([⟨c1bdOuter.ref, []⟩], ("<<outer>>\n".data), []) := by
  constructor
  · apply (C1_nested_block c1bdOuter c1bdInner [] [] (mkLoc 1) (mkLoc 2) []
      ("# ~/~ begin <<d.md#inner>>[0]\n".data)
      [(mkLoc 3, ("# ~/~ end\n".data)), (mkLoc 4, ("# ~/~ end\n".data))]).1
      (by rfl) (by rfl)
    exact runLoop_of_fuel 3 c1bdInner (c1bdOuter.ref.name.nspace) (c1bdOuter.indent)
      (mkLoc 2) [] _ _ (by decide) (by rfl)
  · have h := (C1_nested_block c1bdOuter c1bdOuter [] [] (mkLoc 1) (mkLoc 4)
      [([] : Str)] ("# ~/~ end\n".data) []).2 (by rfl) (by rfl)
    exact h.trans (by rfl)

/-- Counterexample for C1 as frozen: reading an init block containing one
nested numeric-ordinal block records both blocks, yet the parent content
stream stays empty — no `<<inner>>` placeholder is appended for the
numeric nested block. -/
theorem C1_counterexample :
    read_block [] []
      [ (mkLoc 1, ("# ~/~ begin <<d.md#outer>>[init]\n".data)),
        (mkLoc 2, ("# ~/~ begin <<d.md#inner>>[0]\n".data)),
        (mkLoc 3, ("# ~/~ end\n".data)),
        (mkLoc 4, ("# ~/~ end\n".data)) ] =
      .ok ([⟨c1bdInner.ref, []⟩, ⟨c1bdOuter.ref, []⟩], some ("<<outer>>\n".data), []) ∧
    containsSub ([] : Str) ("<<inner>>".data) = false := by
  constructor
  · apply read_block_eq_of_runLoop _ _ _ _ _ c1bdOuter _ _ _ (by rfl) (by rfl)
    exact runLoop_of_fuel 4 c1bdOuter [] [] (mkLoc 1) [] _ _ (by decide) (by rfl)
  · decide

/-- C3: while reading a block interior, an ordinary line (neither open nor
close marker) is handled as follows: a whitespace-only line is accepted
whatever its indentation (appended with spaces and tabs stripped from the
left); a non-blank line that does not start with the opening marker's
indent raises IndentationError at that line's location; an accepted
non-blank line is appended with the opener's indent prefix removed. -/
theorem C3_interior_lines (bd : OpenBlockData) (ns : List Str) (indent : Str)
    (lastPos pos : TextLocation) (acc : List Str) (line : Str) (rest : List Tok)
    (hopen : open_block line = none) (hclose : close_block line = none) :
    (pyIsBlank line = true →
      runLoop bd ns indent lastPos acc ((pos, line) :: rest) =
        runLoop bd ns indent pos (acc ++ [pyLstripSpTab line]) rest) ∧
    (pyIsBlank line = false → pyStartsWith bd.indent line = false →
      runLoop bd ns indent lastPos acc ((pos, line) :: rest) =
        .error (.indentationError pos)) ∧
    (pyIsBlank line = false → pyStartsWith bd.indent line = true →
      runLoop bd ns indent lastPos acc ((pos, line) :: rest) =
        runLoop bd ns indent pos (acc ++ [pyDropPre bd.indent line]) rest) := by
  refine ⟨?_, ?_, ?_⟩
  · intro hbl
    simp only [runLoop]
    rw [readLoop.eq_def]
    simp only [hopen, hclose, hbl, ite_true]
    cases hc : readLoop bd ns indent pos (acc ++ [pyLstripSpTab line]) rest with
    | error e => simp [Except.map, hc]
    | ok v =>
      obtain ⟨bs, s, r, hr⟩ := v
      simp [Except.map, hc]
  · intro hbl hsw
    simp only [runLoop]
    rw [readLoop.eq_def]
    simp only [hopen, hclose, hbl, hsw, Bool.false_eq_true, ite_false,
      Bool.not_false, ite_true]
    rfl
  · intro hbl hsw
    simp only [runLoop]
    rw [readLoop.eq_def]
    simp only [hopen, hclose, hbl, hsw, Bool.false_eq_true, ite_false,
      Bool.not_true]
    cases hc : readLoop bd ns indent pos (acc ++ [pyDropPre bd.indent line]) rest with
    | error e => simp [Except.map, hc]
    | ok v =>
      obtain ⟨bs, s, r, hr⟩ := v
      simp [Except.map, hc]

/-- Witness for C3 with indent "  ": a blank line at zero indentation is
accepted, an under-indented non-blank line raises, and a well-indented
line is appended stripped of the indent. -/
theorem C3_interior_lines_witness :
    (runLoop c1bdInner [] ("  ".data) (mkLoc 1) [] [(mkLoc 2, ("\n".data))] =
      runLoop c1bdInner [] ("  ".data) (mkLoc 2) [("\n".data)] []) ∧
    runLoop ⟨c1bdInner.ref, false, "  ".data⟩ [] [] (mkLoc 1) []
        [(mkLoc 2, ("x = 1\n".data))] =
      .error (.indentationError (mkLoc 2)) ∧
    (runLoop ⟨c1bdInner.ref, false, "  ".data⟩ [] [] (mkLoc 1) []
        ((mkLoc 2, ("  x = 1\n".data)) :: [(mkLoc 3, ("  # ~/~ end\n".data))]) =
      runLoop ⟨c1bdInner.ref, false, "  ".data⟩ [] [] (mkLoc 2) [("x = 1\n".data)]
        [(mkLoc 3, ("  # ~/~ end\n".data))]) := by
  refine ⟨?_, ?_, ?_⟩
  · have h := (C3_interior_lines c1bdInner [] ("  ".data) (mkLoc 1) (mkLoc 2) []
      ("\n".data) [] (by rfl) (by rfl)).1 (by rfl)
    exact h.trans (by rfl)
  · exact (C3_interior_lines ⟨c1bdInner.ref, false, "  ".data⟩ [] [] (mkLoc 1)
      (mkLoc 2) [] ("x = 1\n".data) [] (by rfl) (by rfl)).2.1 (by rfl) (by rfl)
  · have h := (C3_interior_lines ⟨c1bdInner.ref, false, "  ".data⟩ [] [] (mkLoc 1)
      (mkLoc 2) [] ("  x = 1\n".data) [(mkLoc 3, ("  # ~/~ end\n".data))]
      (by rfl) (by rfl)).2.2 (by rfl) (by rfl)
    exact h.trans (by rfl)

/-- C4: exhausting the input while a block is open raises ParseError (at
the last position read in that frame, with no block yielded for the
unclosed block — an error result carries no blocks); and a close marker
whose captured indent differs from the opener's indent raises
IndentationError at the close marker's location. -/
theorem C4_reader_errors :
    (∀ (bd : OpenBlockData) (ns : List Str) (indent : Str)
        (lastPos : TextLocation) (acc : List Str),
      runLoop bd ns indent lastPos acc [] =
        .error (.parseError lastPos ("unexpected end of file".data))) ∧
    (∀ (ns : List Str) (indent : Str) (p1 p2 : TextLocation) (l1 l2 : Str)
        (bd : OpenBlockData) (cd : CloseBlockData),
      open_block l1 = some bd → pyStrLt bd.indent indent = false →
      open_block l2 = none → close_block l2 = some cd → cd.indent ≠ bd.indent →
      read_block ns indent [(p1, l1), (p2, l2)] =
        .error (.indentationError p2)) := by
  constructor
  · intro bd ns indent lastPos acc
    simp [runLoop, readLoop, Except.map]
  · intro ns indent p1 p2 l1 l2 bd cd hob hlt hob2 hcl hne
    simp only [read_block, hob, hlt, Bool.false_eq_true, ite_false]
    rw [readLoop.eq_def]
    simp only [hob2, hcl, hne, ite_true, if_pos hne]

/-- Witness for C4: a block opened on the last line raises ParseError,
and a close marker indented deeper than its opener raises
IndentationError. -/
theorem C4_reader_errors_witness :
    runLoop c1bdOuter [] [] (mkLoc 1) [] [] =
      .error (.parseError (mkLoc 1) ("unexpected end of file".data)) ∧
    read_block [] []
        [(mkLoc 1, ("# ~/~ begin <<d.md#outer>>[init]\n".data)),
         (mkLoc 2, ("  # ~/~ end\n".data))] =
      .error (.indentationError (mkLoc 2)) :=
  ⟨C4_reader_errors.1 c1bdOuter [] [] (mkLoc 1) [],
   C4_reader_errors.2 [] [] (mkLoc 1) (mkLoc 2)
     ("# ~/~ begin <<d.md#outer>>[init]\n".data) ("  # ~/~ end\n".data)
     c1bdOuter ⟨"  ".data⟩ (by rfl) (by rfl) (by rfl) (by rfl) (by decide)⟩

/-- Counterexample for C2 as frozen: C2D0 has no undefined references and
no duplicate init declarations, yet stitching its tangled output does
not reproduce it — the back-reader replaces the nested numeric-ordinal
block by an empty string instead of a placeholder, so the stitched
middle block loses its reference line. -/
theorem C2_counterexample :
    noUndefinedRefs C2D0 = true ∧ noDupInit C2D0 = true ∧
    roundTrip C2D0 ≠ some C2D0 := by
  refine ⟨by decide, by decide, ?_⟩
  have ht : tangleDoc C2D0 = some [(("out.txt".data),
      ("# ~/~ begin <<d.md#x>>[0] \n# ~/~ begin <<d.md#y>>[0] \nhi\n# ~/~ end \n# ~/~ end \n".data))] := by
    rfl
  have hb : read_top_level (numbered_lines ("out.txt".data)
      ("# ~/~ begin <<d.md#x>>[0] \n# ~/~ begin <<d.md#y>>[0] \nhi\n# ~/~ end \n# ~/~ end \n".data)) =
      .ok [⟨⟨⟨[], "y".data⟩, "d.md".data, 0⟩, "hi\n".data⟩,
           ⟨⟨⟨[], "x".data⟩, "d.md".data, 0⟩, []⟩] :=
    read_top_level_of_fuel 7 _ _ (by decide) (by rfl)
  simp only [roundTrip, ht, backreadAll, hb]
  decide

/-! ## Round-trip lemmas: character-class facts about the marker regexes -/

theorem pyStrLt_nil (x : Str) : pyStrLt x [] = false := by
  cases x <;> rfl

theorem takeWhile_append_sat (p : Char → Bool) (x y : Str)
    (hx : ∀ c ∈ x, p c = true) :
    (x ++ y).takeWhile p = x ++ y.takeWhile p := by
  induction x with
  | nil => rfl
  | cons c xs ih =>
    have hc : p c = true := hx c (by simp)
    simp only [List.cons_append, List.takeWhile_cons, hc, ite_true]
    rw [ih (fun c2 h2 => hx c2 (by simp [h2]))]

theorem dropWhile_append_sat (p : Char → Bool) (x y : Str)
    (hx : ∀ c ∈ x, p c = true) :
    (x ++ y).dropWhile p = y.dropWhile p := by
  induction x with
  | nil => rfl
  | cons c xs ih =>
    have hc : p c = true := hx c (by simp)
    simp only [List.cons_append, List.dropWhile_cons, hc, ite_true]
    exact ih (fun c2 h2 => hx c2 (by simp [h2]))

theorem takeWhile_head_false (p : Char → Bool) (y : Str)
    (hy : ∀ c, y.head? = some c → p c = false) : y.takeWhile p = [] := by
  cases y with
  | nil => rfl
  | cons c ys =>
    have := hy c rfl
    simp [List.takeWhile_cons, this]

theorem dropWhile_head_false (p : Char → Bool) (y : Str)
    (hy : ∀ c, y.head? = some c → p c = false) : y.dropWhile p = y := by
  cases y with
  | nil => rfl
  | cons c ys =>
    have := hy c rfl
    simp [List.dropWhile_cons, this]

theorem openTail_nil : openTail [] = none := by rfl

theorem openTail_cons_ne (c : Char) (s : Str) (h : ¬c = '~') :
    openTail (c :: s) = none := by
  simp only [openTail]
  rw [if_neg]
  intro hp
  simp only [List.isPrefixOf, Bool.and_eq_true, beq_iff_eq] at hp
  exact h hp.1.symm

theorem searchOpen_cons (c : Char) (rest : Str) :
    searchOpen (c :: rest) =
      (if c = '\n' then none else searchOpen rest).orElse
        (fun _ => if c = ' ' then openTail rest else none) := by
  rfl

theorem searchOpen_skip (x y : Str) (hx : ∀ c ∈ x, ¬c = ' ' ∧ ¬c = '\n') :
    searchOpen (x ++ y) = searchOpen y := by
  induction x with
  | nil => rfl
  | cons c xs ih =>
    have hc := hx c (by simp)
    simp only [List.cons_append, searchOpen_cons, hc.1, hc.2, ite_false]
    rw [ih (fun c2 h2 => hx c2 (by simp [h2]))]
    cases searchOpen y <;> simp [Option.orElse]

theorem searchClose_cons (c : Char) (rest : Str) :
    searchClose (c :: rest) =
      ((c = ' ' && ("~/~ end".data).isPrefixOf rest) ||
        (c ≠ '\n' && searchClose rest)) := by
  rfl

theorem searchClose_skip (x y : Str) (hx : ∀ c ∈ x, ¬c = ' ' ∧ ¬c = '\n') :
    searchClose (x ++ y) = searchClose y := by
  induction x with
  | nil => rfl
  | cons c xs ih =>
    have hc := hx c (by simp)
    simp only [List.cons_append, searchClose_cons]
    rw [ih (fun c2 h2 => hx c2 (by simp [h2]))]
    simp [hc.1, hc.2]

theorem isPrefixOf_append_self (x y : Str) : x.isPrefixOf (x ++ y) = true := by
  induction x with
  | nil => simp [List.isPrefixOf]
  | cons c xs ih => simp [List.isPrefixOf, ih]

theorem searchOpen_begin (y : Str) :
    searchOpen (("~/~ begin <<".data) ++ y) = searchOpen y := by
  show searchOpen ('~' :: '/' :: '~' :: ' ' :: 'b' :: 'e' :: 'g' :: 'i' :: 'n' ::
    ' ' :: '<' :: '<' :: y) = searchOpen y
  simp only [searchOpen_cons, openTail_cons_ne 'b' _ (by decide),
    openTail_cons_ne '<' _ (by decide)]
  norm_num
  cases searchOpen y <;> simp [Option.orElse]

theorem isPrefixOf_of_append (p q s : Str)
    (h : (p ++ q).isPrefixOf s = true) : p.isPrefixOf s = true := by
  induction p generalizing s with
  | nil => simp [List.isPrefixOf]
  | cons a ps ih =>
    cases s with
    | nil => simp [List.isPrefixOf] at h
    | cons b s2 =>
      simp only [List.cons_append, List.isPrefixOf, Bool.and_eq_true] at h ⊢
      exact ⟨h.1, ih s2 h.2⟩

theorem openTail_some_prefixOf (s : Str) (cap : OpenCapture)
    (h : openTail s = some cap) : ("~/~ begin <<".data).isPrefixOf s = true := by
  by_cases hp : ("~/~ begin <<".data).isPrefixOf s = true
  · exact hp
  · simp only [openTail] at h
    rw [if_neg hp] at h
    exact absurd h (by simp)

theorem searchOpen_some_contains (s : Str) (cap : OpenCapture)
    (h : searchOpen s = some cap) :
    containsSub s ("~/~ begin".data) = true := by
  induction s generalizing cap with
  | nil => simp [searchOpen] at h
  | cons c rest ih =>
    rw [searchOpen_cons] at h
    have hsub : containsSub rest ("~/~ begin".data) = true → _ :=
      fun h2 => (by
        simp only [containsSub, Bool.or_eq_true]
        right
        exact h2 :
        containsSub (c :: rest) ("~/~ begin".data) = true)
    cases hfirst : (if c = '\n' then none else searchOpen rest) with
    | some cap2 =>
      apply hsub
      by_cases hc : c = '\n'
      · rw [if_pos hc] at hfirst; exact absurd hfirst (by simp)
      · rw [if_neg hc] at hfirst; exact ih cap2 hfirst
    | none =>
      rw [hfirst] at h
      simp only [Option.orElse] at h
      by_cases hc : c = ' '
      · rw [if_pos hc] at h
        apply hsub
        have hpre := openTail_some_prefixOf rest cap h
        have hpre2 : ("~/~ begin".data).isPrefixOf rest = true :=
          isPrefixOf_of_append _ (" <<".data) rest (by
            have : ("~/~ begin".data) ++ (" <<".data) = ("~/~ begin <<".data) := by decide
            rw [this]; exact hpre)
        cases rest with
        | nil => simp [List.isPrefixOf] at hpre2
        | cons b r2 =>
          simp only [containsSub, Bool.or_eq_true]
          left
          exact hpre2
      · rw [if_neg hc] at h
        exact absurd h (by simp)

theorem searchClose_true_contains (s : Str)
    (h : searchClose s = true) : containsSub s ("~/~ end".data) = true := by
  induction s with
  | nil => simp [searchClose] at h
  | cons c rest ih =>
    rw [searchClose_cons] at h
    simp only [Bool.or_eq_true, Bool.and_eq_true, decide_eq_true_eq, ne_eq,
      decide_not, Bool.not_eq_eq_eq_not, Bool.not_false] at h
    simp only [containsSub, Bool.or_eq_true]
    rcases h with ⟨hc, hpre⟩ | ⟨_, hcl⟩
    · right
      cases rest with
      | nil => simp [List.isPrefixOf] at hpre
      | cons b r2 =>
        have : containsSub (b :: r2) ("~/~ end".data) = true := by
          simp only [containsSub, Bool.or_eq_true]
          left
          exact hpre
        rw [show containsSub (b :: r2) = containsSub (b :: r2) from rfl]
        exact this
    · right
      exact ih hcl

theorem containsSub_dropWhile (q : Char → Bool) (l pat : Str)
    (h : containsSub (l.dropWhile q) pat = true) : containsSub l pat = true := by
  induction l with
  | nil => simpa using h
  | cons c rest ih =>
    simp only [List.dropWhile_cons] at h
    by_cases hc : q c = true
    · rw [if_pos hc] at h
      simp only [containsSub, Bool.or_eq_true]
      right
      exact ih h
    · rw [if_neg hc] at h
      exact h

theorem spTab_pySpace (c : Char) (h : isSpTab c = true) : pySpace c = true := by
  simp only [isSpTab, Bool.or_eq_true, decide_eq_true_eq] at h
  rcases h with h | h <;> simp [pySpace, h]

theorem getLast_append_singleton (l : Str) (a : Char) :
    (l ++ [a]).getLast? = some a := by
  induction l with
  | nil => rfl
  | cons c rest ih =>
    cases rest with
    | nil => rfl
    | cons d r2 => simpa using ih

theorem containsSub_of_isPrefixOf (s pat : Str) (h : pat.isPrefixOf s = true) :
    containsSub s pat = true := by
  cases s with
  | nil => exact h
  | cons c rest =>
    simp only [containsSub, Bool.or_eq_true]
    left
    exact h

theorem lineOKB_elim (l : Str) (h : lineOKB l = true) :
    l = ['\n'] ∨ (containsSub l ("~/~ begin".data) = false ∧
      containsSub l ("~/~ end".data) = false ∧
      l.any (fun c => !pySpace c) = true) := by
  simp only [lineOKB, Bool.or_eq_true, Bool.and_eq_true, decide_eq_true_eq,
    Bool.not_eq_eq_eq_not, Bool.not_true] at h
  tauto

theorem open_block_marker_free (I l : Str) (hI : ∀ c ∈ I, isSpTab c = true)
    (hl : lineOKB l = true) :
    open_block (I ++ l) = none ∧ close_block (I ++ l) = none := by
  have hIp : ∀ c ∈ I, pySpace c = true := fun c hc => spTab_pySpace c (hI c hc)
  rcases lineOKB_elim l hl with hnl | ⟨hb, he, _⟩
  · subst hnl
    have htake : ((I ++ ['\n']).takeWhile pySpace) = I ++ ['\n'] := by
      rw [takeWhile_append_sat pySpace I ['\n'] hIp]; rfl
    have hdrop : ((I ++ ['\n']).dropWhile pySpace) = [] := by
      rw [dropWhile_append_sat pySpace I ['\n'] hIp]; rfl
    constructor
    · simp only [open_block, htake, hdrop]
      rw [if_neg]
      · rfl
      · rw [getLast_append_singleton]
        simp
    · simp only [close_block, htake, hdrop]
      rw [if_neg (by simp [searchClose])]
      rw [if_neg]
      rw [getLast_append_singleton]
      simp
  · have hdrop : ((I ++ l).dropWhile pySpace) = l.dropWhile pySpace :=
      dropWhile_append_sat pySpace I l hIp
    have hso : searchOpen (l.dropWhile pySpace) = none := by
      cases hcase : searchOpen (l.dropWhile pySpace) with
      | none => rfl
      | some cap =>
        have hc2 := containsSub_dropWhile pySpace l _
          (searchOpen_some_contains _ cap hcase)
        rw [hb] at hc2
        exact absurd hc2 (by simp)
    have hot : openTail (l.dropWhile pySpace) = none := by
      cases hcase : openTail (l.dropWhile pySpace) with
      | none => rfl
      | some cap =>
        have hpre := openTail_some_prefixOf _ cap hcase
        have hpre2 : ("~/~ begin".data).isPrefixOf (l.dropWhile pySpace) = true :=
          isPrefixOf_of_append _ (" <<".data) _ (by
            have hcat : ("~/~ begin".data) ++ (" <<".data) = ("~/~ begin <<".data) := by
              decide
            rw [hcat]; exact hpre)
        have hc2 := containsSub_dropWhile pySpace l _
          (containsSub_of_isPrefixOf _ _ hpre2)
        rw [hb] at hc2
        exact absurd hc2 (by simp)
    have hsc : searchClose (l.dropWhile pySpace) = false := by
      cases hcase : searchClose (l.dropWhile pySpace) with
      | false => rfl
      | true =>
        have hc2 := containsSub_dropWhile pySpace l _
          (searchClose_true_contains _ hcase)
        rw [he] at hc2
        exact absurd hc2 (by simp)
    have hce : ("~/~ end".data).isPrefixOf (l.dropWhile pySpace) = false := by
      cases hcase : ("~/~ end".data).isPrefixOf (l.dropWhile pySpace) with
      | false => rfl
      | true =>
        have hc2 := containsSub_dropWhile pySpace l _
          (containsSub_of_isPrefixOf _ _ hcase)
        rw [he] at hc2
        exact absurd hc2 (by simp)
    constructor
    · simp only [open_block, hdrop, hso, hot]
      split <;> rfl
    · simp only [close_block, hdrop, hsc, Bool.false_eq_true, ite_false, hce]
      split <;> rfl

theorem close_block_mkClose (I : Str) (hI : ∀ c ∈ I, isSpTab c = true) :
    close_block (mkCloseMarker I) = some ⟨I⟩ := by
  have hIp : ∀ c ∈ I, pySpace c = true := fun c hc => spTab_pySpace c (hI c hc)
  rw [mkCloseMarker, List.append_assoc]
  show close_block (I ++ ("# ~/~ end \n".data)) = some ⟨I⟩
  have htake : ((I ++ ("# ~/~ end \n".data)).takeWhile pySpace) = I := by
    rw [takeWhile_append_sat pySpace I _ hIp]
    rw [takeWhile_head_false pySpace _ (by intro c hc; cases hc; rfl)]
    simp
  have hdrop : ((I ++ ("# ~/~ end \n".data)).dropWhile pySpace) =
      ("# ~/~ end \n".data) := by
    rw [dropWhile_append_sat pySpace I _ hIp]
    exact dropWhile_head_false pySpace _ (by intro c hc; cases hc; rfl)
  simp only [close_block, htake, hdrop]
  rw [if_pos (by decide)]

theorem open_block_mkClose (I : Str) (hI : ∀ c ∈ I, isSpTab c = true) :
    open_block (mkCloseMarker I) = none := by
  have hIp : ∀ c ∈ I, pySpace c = true := fun c hc => spTab_pySpace c (hI c hc)
  rw [mkCloseMarker, List.append_assoc]
  show open_block (I ++ ("# ~/~ end \n".data)) = none
  have hdrop : ((I ++ ("# ~/~ end \n".data)).dropWhile pySpace) =
      ("# ~/~ end \n".data) := by
    rw [dropWhile_append_sat pySpace I _ hIp]
    exact dropWhile_head_false pySpace _ (by intro c hc; cases hc; rfl)
  simp only [open_block, hdrop]
  rw [show searchOpen ("# ~/~ end \n".data) = none from by decide]
  rw [show openTail ("# ~/~ end \n".data) = none from by decide]
  simp

theorem pathCharB_props (c : Char) (h : pathCharB c = true) :
    ¬c = ' ' ∧ ¬c = '\n' ∧ refChar c = true ∧ pySpace c = false := by
  simp only [pathCharB, Bool.not_eq_eq_eq_not, Bool.not_true, Bool.or_eq_false_iff,
    decide_eq_false_iff_not] at h
  obtain ⟨⟨⟨hs, h1⟩, h2⟩, h3⟩ := h
  refine ⟨?_, ?_, ?_, hs⟩
  · intro he; subst he; simp [pySpace] at hs
  · intro he; subst he; simp [pySpace] at hs
  · simp [refChar, h1, h2, h3]

theorem nameCharB_path (c : Char) (h : nameCharB c = true) : pathCharB c = true := by
  simp only [nameCharB, Bool.not_eq_eq_eq_not, Bool.not_true, Bool.or_eq_false_iff,
    decide_eq_false_iff_not] at h
  simp only [pathCharB, Bool.not_eq_eq_eq_not, Bool.not_true, Bool.or_eq_false_iff,
    decide_eq_false_iff_not]
  tauto

theorem natDigitsAux_lt (f n : Nat) (h : n < f) : ∀ d ∈ natDigitsAux f n, d < 10 := by
  induction f generalizing n with
  | zero => omega
  | succ f ih =>
    cases n with
    | zero => simp [natDigitsAux]
    | succ m =>
      simp only [natDigitsAux, List.mem_cons]
      rintro d (rfl | hd)
      · exact Nat.mod_lt _ (by omega)
      · exact ih ((m + 1) / 10) (by
          have hdiv : (m + 1) / 10 < m + 1 := Nat.div_lt_self (Nat.succ_pos m) (by norm_num)
          omega) d hd

theorem natDigitsAux_val (f n : Nat) (h : n < f) :
    (natDigitsAux f n).foldr (fun d acc => d + 10 * acc) 0 = n := by
  induction f generalizing n with
  | zero => omega
  | succ f ih =>
    cases n with
    | zero => simp [natDigitsAux]
    | succ m =>
      simp only [natDigitsAux, List.foldr_cons]
      rw [ih ((m + 1) / 10) (by
        have hdiv : (m + 1) / 10 < m + 1 := Nat.div_lt_self (Nat.succ_pos m) (by norm_num)
        omega)]
      exact Nat.mod_add_div (m + 1) 10

theorem digitVal_chr (d : Nat) (h : d < 10) :
    digitVal (Char.ofNat (48 + d)) = d := by
  interval_cases d <;> rfl

theorem chr_isDigit (d : Nat) (h : d < 10) :
    (Char.ofNat (48 + d)).isDigit = true := by
  interval_cases d <;> rfl

theorem digitsToNat_append_digit (x : Str) (c : Char) :
    digitsToNat (x ++ [c]) = 10 * digitsToNat x + digitVal c := by
  simp [digitsToNat, List.foldl_append]

theorem digitsToNat_rev_map (ds : List Nat) (hd : ∀ d ∈ ds, d < 10) :
    digitsToNat ((ds.reverse).map (fun d => Char.ofNat (48 + d))) =
      ds.foldr (fun d acc => d + 10 * acc) 0 := by
  induction ds with
  | nil => rfl
  | cons d rest ih =>
    simp only [List.reverse_cons, List.map_append, List.map_cons, List.map_nil,
      List.foldr_cons]
    rw [digitsToNat_append_digit]
    rw [ih (fun e he => hd e (by simp [he]))]
    rw [digitVal_chr d (hd d (by simp))]
    omega

theorem digitsToNat_natDigits (j : Nat) : digitsToNat (natDigits j) = j := by
  by_cases hj : j = 0
  · subst hj; rfl
  · simp only [natDigits, hj, ite_false]
    rw [digitsToNat_rev_map _ (natDigitsAux_lt (j + 1) j (by omega))]
    exact natDigitsAux_val (j + 1) j (by omega)

theorem natDigits_ne_nil (j : Nat) : natDigits j ≠ [] := by
  by_cases hj : j = 0
  · subst hj; simp [natDigits]
  · simp only [natDigits, hj, ite_false]
    cases j with
    | zero => exact absurd rfl hj
    | succ m => simp [natDigitsAux]

theorem natDigits_isDigit (j : Nat) : ∀ c ∈ natDigits j, c.isDigit = true := by
  by_cases hj : j = 0
  · subst hj
    intro c hc
    rw [show natDigits 0 = ['0'] from rfl] at hc
    obtain rfl := List.mem_singleton.mp hc
    rfl
  · simp only [natDigits, hj, ite_false]
    intro c hc
    simp only [List.mem_map, List.mem_reverse] at hc
    obtain ⟨d, hd, rfl⟩ := hc
    exact chr_isDigit d (natDigitsAux_lt (j + 1) j (by omega) d hd)

theorem isDigit_props (c : Char) (h : c.isDigit = true) :
    ¬c = ' ' ∧ ¬c = '\n' ∧ refChar c = true := by
  refine ⟨?_, ?_, ?_⟩
  · intro he; subst he; simp [Char.isDigit] at h
  · intro he; subst he; simp [Char.isDigit] at h
  · simp only [Char.isDigit, decide_eq_true_eq, Bool.and_eq_true] at h
    have h1 : ¬c = '#' := by intro he; subst he; revert h; decide
    have h2 : ¬c = '<' := by intro he; subst he; revert h; decide
    have h3 : ¬c = '>' := by intro he; subst he; revert h; decide
    simp [refChar, h1, h2, h3]

theorem open_block_mkOpen (I path nm : Str) (j : Nat)
    (hI : ∀ c ∈ I, isSpTab c = true)
    (hpathne : ¬path = []) (hpath : ∀ c ∈ path, pathCharB c = true)
    (hnmne : ¬nm = []) (hnm : ∀ c ∈ nm, nameCharB c = true) :
    open_block (mkOpenMarker I path nm j) =
      some ⟨⟨ReferenceName.from_str nm, path, j⟩, false, I⟩ := by
  have hIp : ∀ c ∈ I, pySpace c = true := fun c hc => spTab_pySpace c (hI c hc)
  have hshape : mkOpenMarker I path nm j =
      I ++ (("# ~/~ begin <<".data) ++
        (path ++ ('#' :: (nm ++ ((">>[".data) ++
          (natDigits j ++ (("] ".data) ++ ['\n']))))))) := by
    simp [mkOpenMarker, List.append_assoc]
  rw [hshape]
  have htake : ((I ++ (("# ~/~ begin <<".data) ++
      (path ++ ('#' :: (nm ++ ((">>[".data) ++
        (natDigits j ++ (("] ".data) ++ ['\n'])))))))).takeWhile pySpace) = I := by
    rw [takeWhile_append_sat pySpace I _ hIp]
    rw [takeWhile_head_false pySpace _ (by
      intro c hc
      rw [show ((("# ~/~ begin <<".data) ++
        (path ++ ('#' :: (nm ++ ((">>[".data) ++
          (natDigits j ++ (("] ".data) ++ ['\n']))))))).head? = some '#') from rfl] at hc
      obtain rfl := Option.some.inj hc
      rfl)]
    simp
  have hdrop : ((I ++ (("# ~/~ begin <<".data) ++
      (path ++ ('#' :: (nm ++ ((">>[".data) ++
        (natDigits j ++ (("] ".data) ++ ['\n'])))))))).dropWhile pySpace) =
      (("# ~/~ begin <<".data) ++
        (path ++ ('#' :: (nm ++ ((">>[".data) ++
          (natDigits j ++ (("] ".data) ++ ['\n']))))))) := by
    rw [dropWhile_append_sat pySpace I _ hIp]
    exact dropWhile_head_false pySpace _ (by
      intro c hc
      rw [show ((("# ~/~ begin <<".data) ++
        (path ++ ('#' :: (nm ++ ((">>[".data) ++
          (natDigits j ++ (("] ".data) ++ ['\n']))))))).head? = some '#') from rfl] at hc
      obtain rfl := Option.some.inj hc
      rfl)
  have hxchars : ∀ c ∈ (path ++ ('#' :: (nm ++ ((">>[".data) ++ natDigits j)))),
      ¬c = ' ' ∧ ¬c = '\n' := by
    intro c hc
    simp only [List.mem_append, List.mem_cons] at hc
    rcases hc with hc | rfl | hc | hc | hc
    · have := pathCharB_props c (hpath c hc)
      exact ⟨this.1, this.2.1⟩
    · exact ⟨by decide, by decide⟩
    · have := pathCharB_props c (nameCharB_path c (hnm c hc))
      exact ⟨this.1, this.2.1⟩
    · rcases hc with rfl | rfl | rfl | hc
      · exact ⟨by decide, by decide⟩
      · exact ⟨by decide, by decide⟩
      · exact ⟨by decide, by decide⟩
      · exact absurd hc (List.not_mem_nil c)
    · have := isDigit_props c (natDigits_isDigit j c hc)
      exact ⟨this.1, this.2.1⟩
  have hSOX : searchOpen (path ++ ('#' :: (nm ++ ((">>[".data) ++
      (natDigits j ++ (("] ".data) ++ ['\n'])))))) = none := by
    have hxy : (path ++ ('#' :: (nm ++ ((">>[".data) ++
        (natDigits j ++ (("] ".data) ++ ['\n'])))))) =
        (path ++ ('#' :: (nm ++ ((">>[".data) ++ natDigits j)))) ++
          (("] ".data) ++ ['\n']) := by
      simp [List.append_assoc]
    rw [hxy, searchOpen_skip _ _ hxchars]
    decide
  have hOT : openTail (("~/~ begin <<".data) ++
      (path ++ ('#' :: (nm ++ ((">>[".data) ++
        (natDigits j ++ (("] ".data) ++ ['\n']))))))) =
      some ⟨path, nm, .num j⟩ := by
    simp only [openTail, isPrefixOf_append_self, ite_true]
    rw [show (12 : Nat) = ("~/~ begin <<".data).length from rfl, List.drop_left]
    have hsrc : ((path ++ ('#' :: (nm ++ ((">>[".data) ++
        (natDigits j ++ (("] ".data) ++ ['\n'])))))).takeWhile refChar) = path := by
      rw [takeWhile_append_sat refChar path _
        (fun c hc => (pathCharB_props c (hpath c hc)).2.2.1)]
      rw [takeWhile_head_false refChar _ (by
        intro c hc
        obtain rfl := Option.some.inj hc
        rfl)]
      simp
    rw [hsrc]
    rw [if_neg (by simpa using hpathne)]
    rw [show ((path ++ ('#' :: (nm ++ ((">>[".data) ++
        (natDigits j ++ (("] ".data) ++ ['\n'])))))).drop path.length) =
      ('#' :: (nm ++ ((">>[".data) ++
        (natDigits j ++ (("] ".data) ++ ['\n']))))) from List.drop_left _ _]
    have hnmw : ((nm ++ ((">>[".data) ++
        (natDigits j ++ (("] ".data) ++ ['\n'])))).takeWhile refChar) = nm := by
      rw [takeWhile_append_sat refChar nm _
        (fun c hc => (pathCharB_props c (nameCharB_path c (hnm c hc))).2.2.1)]
      rw [takeWhile_head_false refChar _ (by
        intro c hc
        obtain rfl := Option.some.inj hc
        rfl)]
      simp
    simp only [hnmw]
    rw [if_neg (by simpa using hnmne)]
    rw [show ((nm ++ ((">>[".data) ++
        (natDigits j ++ (("] ".data) ++ ['\n'])))).drop nm.length) =
      ((">>[".data) ++ (natDigits j ++ (("] ".data) ++ ['\n']))) from
        List.drop_left _ _]
    rw [if_pos (isPrefixOf_append_self _ _)]
    rw [show (((">>[".data) ++ (natDigits j ++ (("] ".data) ++ ['\n']))).drop 3) =
      (natDigits j ++ (("] ".data) ++ ['\n'])) from by
        rw [show (3 : Nat) = (">>[".data).length from rfl]
        exact List.drop_left _ _]
    have hds : ((natDigits j ++ (("] ".data) ++ ['\n'])).takeWhile Char.isDigit) =
        natDigits j := by
      rw [takeWhile_append_sat Char.isDigit _ _ (natDigits_isDigit j)]
      rw [takeWhile_head_false Char.isDigit _ (by
        intro c hc
        obtain rfl := Option.some.inj hc
        rfl)]
      simp
    simp only [parseOrd, hds]
    rw [if_pos (by simpa using natDigits_ne_nil j)]
    rw [show ((natDigits j ++ (("] ".data) ++ ['\n'])).drop (natDigits j).length) =
      ((("] ".data) ++ ['\n'])) from List.drop_left _ _]
    rw [show ((("] ".data) ++ ['\n'])) = (']' :: (' ' :: ['\n'])) from rfl]
    simp only [digitsToNat_natDigits]
    rfl
  simp only [open_block, htake, hdrop]
  rw [show (("# ~/~ begin <<".data) ++
      (path ++ ('#' :: (nm ++ ((">>[".data) ++
        (natDigits j ++ (("] ".data) ++ ['\n']))))))) =
    ('#' :: ' ' :: (("~/~ begin <<".data) ++
      (path ++ ('#' :: (nm ++ ((">>[".data) ++
        (natDigits j ++ (("] ".data) ++ ['\n'])))))))) from rfl]
  rw [searchOpen_cons, searchOpen_cons, searchOpen_begin]
  rw [if_neg (by decide : ¬('#' : Char) = '\n'),
    if_neg (by decide : ¬(' ' : Char) = '\n'),
    if_pos (rfl : (' ' : Char) = ' '),
    if_neg (by decide : ¬('#' : Char) = ' ')]
  rw [hSOX, hOT]
  rfl

theorem linesSplit_single_append (l t : Str) (h : singleNlB l = true) :
    linesSplit (l ++ t) = l :: linesSplit t := by
  induction l with
  | nil => simp [singleNlB] at h
  | cons c l2 ih =>
    cases l2 with
    | nil =>
      simp only [singleNlB, List.dropLast_single, List.all_nil, Bool.true_and,
        List.getLast?_singleton, decide_eq_true_eq, Option.some.injEq] at h
      subst h
      simp [linesSplit]
    | cons d l3 =>
      have h2 : singleNlB (d :: l3) = true := by
        simp only [singleNlB, Bool.and_eq_true, List.all_eq_true] at h ⊢
        refine ⟨fun x hx => h.1 x ?_, ?_⟩
        · rw [show ((c :: d :: l3).dropLast) = c :: ((d :: l3).dropLast) from rfl]
          exact List.mem_cons_of_mem c hx
        · rw [show ((c :: d :: l3).getLast?) = ((d :: l3).getLast?) from
            List.getLast?_cons_cons] at h
          exact h.2
      have hc : ¬c = '\n' := by
        simp only [singleNlB, Bool.and_eq_true, List.all_eq_true] at h
        have := h.1 c (by
          rw [show ((c :: d :: l3).dropLast) = c :: ((d :: l3).dropLast) from rfl]
          exact List.mem_cons_self c _)
        simpa using this
      rw [show ((c :: d :: l3) ++ t) = c :: ((d :: l3) ++ t) from rfl]
      rw [show linesSplit (c :: ((d :: l3) ++ t)) =
        (if c = '\n' then ['\n'] :: linesSplit ((d :: l3) ++ t)
         else match linesSplit ((d :: l3) ++ t) with
           | [] => [[c]]
           | l :: ls => (c :: l) :: ls) from rfl]
      rw [if_neg hc, ih h2]

theorem linesSplit_no_interior (t : Str) :
    ∀ l ∈ linesSplit t, ∀ c ∈ l.dropLast, ¬c = '\n' := by
  induction t with
  | nil =>
    intro l hl
    simp only [linesSplit, List.mem_singleton] at hl
    subst hl
    simp
  | cons c rest ih =>
    intro l hl
    simp only [linesSplit] at hl
    by_cases hc : c = '\n'
    · rw [if_pos hc] at hl
      rcases List.mem_cons.mp hl with rfl | hl
      · simp
      · exact ih l hl
    · rw [if_neg hc] at hl
      cases hr : linesSplit rest with
      | nil => exact absurd hr (linesSplit_ne_nil rest)
      | cons p ps =>
        rw [hr] at hl
        rcases List.mem_cons.mp hl with rfl | hl
        · intro x hx
          cases p with
          | nil => simp at hx
          | cons q qs =>
            rw [show ((c :: q :: qs).dropLast) = c :: ((q :: qs).dropLast) from rfl]
              at hx
            rcases List.mem_cons.mp hx with rfl | hx
            · exact hc
            · exact ih (q :: qs) (by rw [hr]; exact List.mem_cons_self _ _) x hx
        · exact ih l (by rw [hr]; exact List.mem_cons_of_mem _ hl)

theorem linesSplit_getLast_nil (t : Str) (h : t.getLast? = some '\n') :
    (linesSplit t).getLast? = some [] := by
  induction t with
  | nil => simp at h
  | cons c rest ih =>
    cases rest with
    | nil =>
      simp only [List.getLast?_singleton, Option.some.injEq] at h
      subst h
      rfl
    | cons d r2 =>
      rw [List.getLast?_cons_cons] at h
      have hr := ih h
      rw [show linesSplit (c :: d :: r2) =
        (if c = '\n' then ['\n'] :: linesSplit (d :: r2)
         else match linesSplit (d :: r2) with
           | [] => [[c]]
           | l :: ls => (c :: l) :: ls) from rfl]
      by_cases hc : c = '\n'
      · rw [if_pos hc]
        cases hrs : linesSplit (d :: r2) with
        | nil => exact absurd hrs (linesSplit_ne_nil _)
        | cons p ps =>
          rw [hrs] at hr
          rw [List.getLast?_cons_cons]
          exact hr
      · rw [if_neg hc]
        cases hrs : linesSplit (d :: r2) with
        | nil => exact absurd hrs (linesSplit_ne_nil _)
        | cons p ps =>
          rw [hrs] at hr
          cases hps : ps with
          | nil =>
            subst hps
            simp only [List.getLast?_singleton, Option.some.injEq] at hr
            subst hr
            have hfl := linesSplit_flatten (d :: r2)
            rw [hrs] at hfl
            simp at hfl
          | cons q qs =>
            subst hps
            rw [List.getLast?_cons_cons] at hr ⊢
            exact hr

theorem mdLines_singleNl (c : Str) (h : nlTerminatedB c = true) :
    ∀ l ∈ mdLines c, singleNlB l = true := by
  intro l hl
  cases c with
  | nil => simp [mdLines, linesSplit] at hl
  | cons a rest =>
    have hnl : (a :: rest).getLast? = some '\n' := by
      simp only [nlTerminatedB, Bool.or_eq_true, List.isEmpty_cons,
        decide_eq_true_eq] at h
      rcases h with h | h
      · exact absurd h (by simp)
      · exact h
    have hlast := linesSplit_getLast_nil (a :: rest) hnl
    have hmem : l ∈ (linesSplit (a :: rest)).dropLast := by
      simpa [mdLines, hlast] using hl
    have hl2 : l ∈ linesSplit (a :: rest) := List.dropLast_subset _ hmem
    simp only [singleNlB, Bool.and_eq_true, List.all_eq_true]
    refine ⟨fun x hx => by
      simpa using linesSplit_no_interior (a :: rest) l hl2 x hx, ?_⟩
    simp only [decide_eq_true_eq]
    exact linesSplit_dropLast_newline (a :: rest) l hmem

theorem mdLines_flatten (c : Str) (h : nlTerminatedB c = true) :
    (mdLines c).flatten = c := by
  cases c with
  | nil => rfl
  | cons a rest =>
    have hnl : (a :: rest).getLast? = some '\n' := by
      simp only [nlTerminatedB, Bool.or_eq_true, List.isEmpty_cons,
        decide_eq_true_eq] at h
      rcases h with h | h
      · exact absurd h (by simp)
      · exact h
    have hlast := linesSplit_getLast_nil (a :: rest) hnl
    have hmd : mdLines (a :: rest) = (linesSplit (a :: rest)).dropLast := by
      simp [mdLines, hlast]
    have hne : linesSplit (a :: rest) ≠ [] := linesSplit_ne_nil _
    have hsplit : (linesSplit (a :: rest)).dropLast ++
        [(linesSplit (a :: rest)).getLast hne] = linesSplit (a :: rest) :=
      List.dropLast_append_getLast hne
    have hgl : (linesSplit (a :: rest)).getLast hne = [] := by
      have := List.getLast?_eq_getLast _ hne
      rw [hlast] at this
      exact (Option.some.inj this).symm
    rw [hmd]
    have hfl := linesSplit_flatten (a :: rest)
    calc ((linesSplit (a :: rest)).dropLast).flatten
      = ((linesSplit (a :: rest)).dropLast).flatten ++ [] := by simp
    _ = ((linesSplit (a :: rest)).dropLast ++
          [(linesSplit (a :: rest)).getLast hne]).flatten := by
        rw [List.flatten_append, hgl]
        simp
    _ = a :: rest := by rw [hsplit, hfl]

theorem linesSplit_flatten_append (L : List Str) (t : Str)
    (h : ∀ l ∈ L, singleNlB l = true) :
    linesSplit (L.flatten ++ t) = L ++ linesSplit t := by
  induction L with
  | nil => simp
  | cons l ls ih =>
    rw [List.flatten_cons, List.append_assoc,
      linesSplit_single_append l _ (h l (List.mem_cons_self _ _)),
      ih (fun x hx => h x (List.mem_cons_of_mem _ hx))]
    rfl

theorem dropLast_append_left (x y : Str) (hy : ¬y = []) :
    (x ++ y).dropLast = x ++ y.dropLast := by
  induction x with
  | nil => rfl
  | cons c xs ih =>
    rw [List.cons_append, List.dropLast_cons_of_ne_nil (by
      intro hx
      exact hy (List.append_eq_nil.mp hx).2), ih, List.cons_append]

theorem getLast?_append_left (x y : Str) (hy : ¬y = []) :
    (x ++ y).getLast? = y.getLast? := by
  induction x with
  | nil => rfl
  | cons c xs ih =>
    rw [List.cons_append]
    cases hxy : xs ++ y with
    | nil => exact absurd (List.append_eq_nil.mp hxy).2 hy
    | cons d r =>
      rw [List.getLast?_cons_cons, ← hxy]
      exact ih

theorem isSpTab_ne_nl (c : Char) (h : isSpTab c = true) : ¬c = '\n' := by
  simp only [isSpTab, Bool.or_eq_true, decide_eq_true_eq] at h
  rcases h with h | h <;> (subst h; decide)

theorem singleNl_indent (I l : Str) (hI : ∀ c ∈ I, isSpTab c = true)
    (hl : singleNlB l = true) : singleNlB (I ++ l) = true := by
  have hne : ¬l = [] := by
    intro h
    subst h
    simp [singleNlB] at hl
  simp only [singleNlB, Bool.and_eq_true, List.all_eq_true] at hl ⊢
  refine ⟨?_, ?_⟩
  · rw [dropLast_append_left I l hne]
    intro c hc
    rcases List.mem_append.mp hc with hc | hc
    · simpa using isSpTab_ne_nl c (hI c hc)
    · exact hl.1 c hc
  · rw [getLast?_append_left I l hne]
    exact hl.2

theorem singleNl_concat_nl (x : Str) (hx : ∀ c ∈ x, ¬c = '\n') :
    singleNlB (x ++ ['\n']) = true := by
  simp only [singleNlB, Bool.and_eq_true, List.all_eq_true]
  refine ⟨?_, ?_⟩
  · rw [dropLast_append_left x ['\n'] (by simp)]
    intro c hc
    rcases List.mem_append.mp hc with hc | hc
    · simpa using hx c hc
    · simp at hc
  · rw [getLast_append_singleton]
    simp

theorem singleNl_mkOpen (I path nm : Str) (j : Nat)
    (hI : ∀ c ∈ I, isSpTab c = true)
    (hpath : ∀ c ∈ path, pathCharB c = true)
    (hnm : ∀ c ∈ nm, nameCharB c = true) :
    singleNlB (mkOpenMarker I path nm j) = true := by
  rw [mkOpenMarker]
  apply singleNl_concat_nl
  intro c hc
  simp only [List.mem_append, List.mem_cons] at hc
  rcases hc with ((((((hc | hc) | hc) | hc) | hc) | hc) | hc) | hc
  · exact isSpTab_ne_nl c (hI c hc)
  · rcases hc with rfl | rfl | rfl | rfl | rfl | rfl | rfl | rfl | rfl |
      rfl | rfl | rfl | rfl | rfl | hc
    all_goals first | decide | exact absurd hc (List.not_mem_nil c)
  · exact (pathCharB_props c (hpath c hc)).2.1
  · rcases hc with rfl | hc
    · decide
    · exact absurd hc (List.not_mem_nil c)
  · exact (pathCharB_props c (nameCharB_path c (hnm c hc))).2.1
  · rcases hc with rfl | rfl | rfl | hc
    all_goals first | decide | exact absurd hc (List.not_mem_nil c)
  · exact (isDigit_props c (natDigits_isDigit j c hc)).2.1
  · rcases hc with rfl | rfl | hc
    all_goals first | decide | exact absurd hc (List.not_mem_nil c)

theorem singleNl_mkClose (I : Str) (hI : ∀ c ∈ I, isSpTab c = true) :
    singleNlB (mkCloseMarker I) = true := by
  rw [mkCloseMarker, List.append_assoc]
  rw [show ("# ~/~ end ".data) ++ ['\n'] = ("# ~/~ end ".data) ++ ['\n'] from rfl]
  rw [← List.append_assoc]
  apply singleNl_concat_nl
  intro c hc
  simp only [List.mem_append, List.mem_cons] at hc
  rcases hc with hc | hc
  · exact isSpTab_ne_nl c (hI c hc)
  · rcases hc with rfl | rfl | rfl | rfl | rfl | rfl | rfl | rfl | rfl | rfl | hc
    all_goals first | decide | exact absurd hc (List.not_mem_nil c)

theorem chunkStrip_spec (I l : Str) (hI : ∀ c ∈ I, isSpTab c = true)
    (hl : lineOKB l = true) : chunkStrip I (I ++ l) = l := by
  rcases lineOKB_elim l hl with rfl | ⟨_, _, hvis⟩
  · have hbl : pyIsBlank (I ++ ['\n']) = true := by
      simp only [pyIsBlank, List.all_eq_true]
      intro c hc
      rcases List.mem_append.mp hc with hc | hc
      · exact spTab_pySpace c (hI c hc)
      · obtain rfl := List.mem_singleton.mp hc
        rfl
    rw [chunkStrip, if_pos hbl, pyLstripSpTab,
      dropWhile_append_sat _ I ['\n'] (fun c hc => by
        simpa [isSpTab] using hI c hc)]
    rfl
  · have hbl : pyIsBlank (I ++ l) = false := by
      simp only [List.any_eq_true, Bool.not_eq_true'] at hvis
      obtain ⟨c, hc, hcs⟩ := hvis
      simp only [pyIsBlank, List.all_eq_false]
      refine ⟨c, List.mem_append_right I hc, ?_⟩
      simp [hcs]
    rw [chunkStrip, if_neg (by simp [hbl]), pyDropPre,
      if_pos (isPrefixOf_append_self I l), List.drop_left]

theorem searchClose_beginlit (y : Str) :
    searchClose (("# ~/~ begin <<".data) ++ y) = searchClose y := by
  show searchClose ('#' :: ' ' :: '~' :: '/' :: '~' :: ' ' :: 'b' :: 'e' :: 'g' ::
    'i' :: 'n' :: ' ' :: '<' :: '<' :: y) = searchClose y
  simp only [searchClose_cons]
  rw [show (("~/~ end".data).isPrefixOf ('~' :: '/' :: '~' :: ' ' :: 'b' :: 'e' ::
    'g' :: 'i' :: 'n' :: ' ' :: '<' :: '<' :: y)) = false from rfl]
  rw [show (("~/~ end".data).isPrefixOf ('b' :: 'e' :: 'g' :: 'i' :: 'n' :: ' ' ::
    '<' :: '<' :: y)) = false from rfl]
  rw [show (("~/~ end".data).isPrefixOf ('<' :: '<' :: y)) = false from rfl]
  simp

theorem close_block_mkOpen (I path nm : Str) (j : Nat)
    (hI : ∀ c ∈ I, isSpTab c = true)
    (hpath : ∀ c ∈ path, pathCharB c = true)
    (hnm : ∀ c ∈ nm, nameCharB c = true) :
    close_block (mkOpenMarker I path nm j) = none := by
  have hIp : ∀ c ∈ I, pySpace c = true := fun c hc => spTab_pySpace c (hI c hc)
  have hshape : mkOpenMarker I path nm j =
      I ++ (("# ~/~ begin <<".data) ++
        (path ++ ('#' :: (nm ++ ((">>[".data) ++
          (natDigits j ++ (("] ".data) ++ ['\n']))))))) := by
    simp [mkOpenMarker, List.append_assoc]
  rw [hshape]
  have hhead : ∀ c, ((("# ~/~ begin <<".data) ++
      (path ++ ('#' :: (nm ++ ((">>[".data) ++
        (natDigits j ++ (("] ".data) ++ ['\n']))))))).head? = some c) →
      pySpace c = false := by
    intro c hc
    rw [show ((("# ~/~ begin <<".data) ++
      (path ++ ('#' :: (nm ++ ((">>[".data) ++
        (natDigits j ++ (("] ".data) ++ ['\n']))))))).head? = some '#') from rfl] at hc
    obtain rfl := Option.some.inj hc
    rfl
  have htake : ((I ++ (("# ~/~ begin <<".data) ++
      (path ++ ('#' :: (nm ++ ((">>[".data) ++
        (natDigits j ++ (("] ".data) ++ ['\n'])))))))).takeWhile pySpace) = I := by
    rw [takeWhile_append_sat pySpace I _ hIp, takeWhile_head_false pySpace _ hhead]
    simp
  have hdrop : ((I ++ (("# ~/~ begin <<".data) ++
      (path ++ ('#' :: (nm ++ ((">>[".data) ++
        (natDigits j ++ (("] ".data) ++ ['\n'])))))))).dropWhile pySpace) =
      (("# ~/~ begin <<".data) ++
        (path ++ ('#' :: (nm ++ ((">>[".data) ++
          (natDigits j ++ (("] ".data) ++ ['\n']))))))) := by
    rw [dropWhile_append_sat pySpace I _ hIp]
    exact dropWhile_head_false pySpace _ hhead
  have hmidchars : ∀ c ∈ (path ++ ('#' :: (nm ++ ((">>[".data) ++
      natDigits j)))), ¬c = ' ' ∧ ¬c = '\n' := by
    intro c hc
    simp only [List.mem_append, List.mem_cons] at hc
    rcases hc with hc | rfl | hc | hc | hc
    · have := pathCharB_props c (hpath c hc)
      exact ⟨this.1, this.2.1⟩
    · exact ⟨by decide, by decide⟩
    · have := pathCharB_props c (nameCharB_path c (hnm c hc))
      exact ⟨this.1, this.2.1⟩
    · rcases hc with rfl | rfl | rfl | hc
      · exact ⟨by decide, by decide⟩
      · exact ⟨by decide, by decide⟩
      · exact ⟨by decide, by decide⟩
      · exact absurd hc (List.not_mem_nil c)
    · have := isDigit_props c (natDigits_isDigit j c hc)
      exact ⟨this.1, this.2.1⟩
  have hsc : searchClose (("# ~/~ begin <<".data) ++
      (path ++ ('#' :: (nm ++ ((">>[".data) ++
        (natDigits j ++ (("] ".data) ++ ['\n']))))))) = false := by
    rw [searchClose_beginlit]
    rw [show ((path ++ ('#' :: (nm ++ ((">>[".data) ++
        (natDigits j ++ (("] ".data) ++ ['\n']))))))) =
      ((path ++ ('#' :: (nm ++ ((">>[".data) ++ natDigits j)))) ++
        ((("] ".data) ++ ['\n']))) from by simp [List.append_assoc]]
    rw [searchClose_skip _ _ hmidchars]
    decide
  simp only [close_block, htake, hdrop, hsc, Bool.false_eq_true, ite_false]
  rw [show (("~/~ end".data).isPrefixOf (("# ~/~ begin <<".data) ++
      (path ++ ('#' :: (nm ++ ((">>[".data) ++
        (natDigits j ++ (("] ".data) ++ ['\n'])))))))) = false from rfl]
  split <;> simp

theorem runLoop_step_plain (bd : OpenBlockData) (ns : List Str) (indent : Str)
    (lastPos pos : TextLocation) (acc : List Str) (line : Str) (rest : List Tok)
    (hopen : open_block line = none) (hclose : close_block line = none)
    (h : pyIsBlank line = true ∨
      (pyIsBlank line = false ∧ pyStartsWith bd.indent line = true)) :
    runLoop bd ns indent lastPos acc ((pos, line) :: rest) =
      runLoop bd ns indent pos (acc ++ [chunkStrip bd.indent line]) rest := by
  rcases h with hbl | ⟨hbl, hsw⟩
  · simp only [runLoop]
    rw [readLoop.eq_def]
    simp only [hopen, hclose, hbl, ite_true]
    rw [show chunkStrip bd.indent line = pyLstripSpTab line from by
      rw [chunkStrip, if_pos hbl]]
    cases hc : readLoop bd ns indent pos (acc ++ [pyLstripSpTab line]) rest with
    | error e => simp [Except.map, hc]
    | ok v =>
      obtain ⟨bs, s, r, hr⟩ := v
      simp [Except.map, hc]
  · simp only [runLoop]
    rw [readLoop.eq_def]
    simp only [hopen, hclose, hbl, hsw, Bool.false_eq_true, ite_false,
      Bool.not_true]
    rw [show chunkStrip bd.indent line = pyDropPre bd.indent line from by
      rw [chunkStrip, if_neg (by simp [hbl])]]
    cases hc : readLoop bd ns indent pos (acc ++ [pyDropPre bd.indent line]) rest with
    | error e => simp [Except.map, hc]
    | ok v =>
      obtain ⟨bs, s, r, hr⟩ := v
      simp [Except.map, hc]

theorem runLoop_step_close (bd : OpenBlockData) (ns : List Str) (indent : Str)
    (lastPos pos : TextLocation) (acc : List Str) (rest : List Tok)
    (hinit : bd.is_init = false) (hI : ∀ c ∈ bd.indent, isSpTab c = true) :
    runLoop bd ns indent lastPos acc ((pos, mkCloseMarker bd.indent) :: rest) =
      .ok ([{ reference_id := bd.ref, content := acc.flatten }], [], rest) := by
  simp only [runLoop]
  rw [readLoop.eq_def]
  simp only [open_block_mkClose bd.indent hI, close_block_mkClose bd.indent hI]
  rw [if_neg (by simp)]
  simp [hinit, Except.map]

theorem runLoop_chunk (bd : OpenBlockData) (ns : List Str) (indent : Str)
    (hinit : bd.is_init = false) (hI : ∀ c ∈ bd.indent, isSpTab c = true) :
    ∀ (tks : List Tok) (posC : TextLocation) (rest : List Tok)
      (lastPos : TextLocation) (acc : List Str),
    (∀ t ∈ tks, ∃ l, t.2 = bd.indent ++ l ∧ lineOKB l = true) →
    runLoop bd ns indent lastPos acc
        (tks ++ (posC, mkCloseMarker bd.indent) :: rest) =
      .ok ([{ reference_id := bd.ref,
              content := (acc ++ tks.map
                (fun t => chunkStrip bd.indent t.2)).flatten }], [], rest) := by
  intro tks
  induction tks with
  | nil =>
    intro posC rest lastPos acc htks
    rw [List.nil_append,
      runLoop_step_close bd ns indent lastPos posC acc rest hinit hI]
    simp
  | cons t tks ih =>
    intro posC rest lastPos acc htks
    obtain ⟨pos, line⟩ := t
    obtain ⟨l, hl, hok⟩ := htks (pos, line) (List.mem_cons_self _ _)
    simp only at hl
    subst hl
    have hmf := open_block_marker_free bd.indent l hI hok
    have hcase : pyIsBlank (bd.indent ++ l) = true ∨
        (pyIsBlank (bd.indent ++ l) = false ∧
          pyStartsWith bd.indent (bd.indent ++ l) = true) := by
      by_cases hbl : pyIsBlank (bd.indent ++ l) = true
      · exact Or.inl hbl
      · exact Or.inr ⟨by simpa using hbl, isPrefixOf_append_self _ _⟩
    rw [List.cons_append,
      runLoop_step_plain bd ns indent lastPos pos acc (bd.indent ++ l)
        _ hmf.1 hmf.2 hcase,
      ih posC rest pos (acc ++ [chunkStrip bd.indent (bd.indent ++ l)])
        (fun t ht => htks t (List.mem_cons_of_mem _ ht))]
    simp [List.append_assoc]

theorem readLoop_of_runLoop (bd : OpenBlockData) (ns : List Str) (indent : Str)
    (lastPos : TextLocation) (acc : List Str) (input : List Tok)
    (bs : List Block) (s : Str) (r : List Tok)
    (h : runLoop bd ns indent lastPos acc input = .ok (bs, s, r)) :
    ∃ pf : r.length ≤ input.length,
      readLoop bd ns indent lastPos acc input = .ok (bs, s, ⟨r, pf⟩) := by
  simp only [runLoop] at h
  cases hn : readLoop bd ns indent lastPos acc input with
  | error e => rw [hn] at h; simp [Except.map] at h
  | ok v =>
    obtain ⟨bs2, s2, r2, hr2⟩ := v
    rw [hn] at h
    simp only [Except.map, Except.ok.injEq, Prod.mk.injEq] at h
    obtain ⟨hb, hs, hr⟩ := h
    subst hb hs hr
    exact ⟨hr2, rfl⟩

theorem read_top_level_skip (pos : TextLocation) (l : Str) (rest : List Tok)
    (h : open_block l = none) :
    read_top_level ((pos, l) :: rest) = read_top_level rest := by
  rw [read_top_level.eq_def]
  simp [h]

theorem read_top_level_chunk (path nm I : Str) (j : Nat)
    (hI : ∀ c ∈ I, isSpTab c = true)
    (hpathne : ¬path = []) (hpath : ∀ c ∈ path, pathCharB c = true)
    (hnmne : ¬nm = []) (hnm : ∀ c ∈ nm, nameCharB c = true)
    (pos posC : TextLocation) (tks rest : List Tok)
    (htks : ∀ t ∈ tks, ∃ l, t.2 = I ++ l ∧ lineOKB l = true) :
    read_top_level ((pos, mkOpenMarker I path nm j) ::
        (tks ++ (posC, mkCloseMarker I) :: rest)) =
      (read_top_level rest).map
        (fun bs2 =>
          { reference_id := ⟨ReferenceName.from_str nm, path, j⟩,
            content := (tks.map (fun t => chunkStrip I t.2)).flatten } :: bs2) := by
  rw [read_top_level.eq_def]
  simp only [open_block_mkOpen I path nm j hI hpathne hpath hnmne hnm,
    pyStrLt_nil, Bool.false_eq_true, ite_false]
  have hrun := runLoop_chunk ⟨⟨ReferenceName.from_str nm, path, j⟩, false, I⟩
    [] [] rfl hI tks posC rest pos [] htks
  obtain ⟨pf, hrl⟩ := readLoop_of_runLoop _ _ _ _ _ _ _ _ _ hrun
  simp only [hrl]
  cases hres : read_top_level rest with
  | error e => simp [Except.map]
  | ok bs2 => simp [Except.map]

theorem toks_snd_cons (tks : List Tok) (l : Str) (L : List Str)
    (h : tks.map Prod.snd = l :: L) :
    ∃ p tks2, tks = (p, l) :: tks2 ∧ tks2.map Prod.snd = L := by
  cases tks with
  | nil => simp at h
  | cons t tks2 =>
    obtain ⟨p, line⟩ := t
    simp only [List.map_cons, List.cons.injEq] at h
    exact ⟨p, tks2, by rw [show line = l from h.1], h.2⟩

theorem toks_snd_append (A : List Str) : ∀ (tks : List Tok) (B : List Str),
    tks.map Prod.snd = A ++ B →
    ∃ t1 t2, tks = t1 ++ t2 ∧ t1.map Prod.snd = A ∧ t2.map Prod.snd = B := by
  induction A with
  | nil => exact fun tks B h => ⟨[], tks, rfl, rfl, by simpa using h⟩
  | cons a A ih =>
    intro tks B h
    rw [List.cons_append] at h
    obtain ⟨p, tks2, rfl, h2⟩ := toks_snd_cons tks a (A ++ B) h
    obtain ⟨t1, t2, rfl, hA, hB⟩ := ih tks2 B h2
    exact ⟨(p, a) :: t1, t2, rfl, by simp [hA], hB⟩

theorem read_top_level_segs (path : Str) :
    ∀ (segs : List Seg), (∀ s ∈ segs, SegWF path s) →
    ∀ (tks : List Tok),
    tks.map Prod.snd = segs.flatMap (segLines path) ++ [[]] →
    read_top_level tks = .ok (segs.flatMap (segBlocks path)) := by
  intro segs
  induction segs with
  | nil =>
    intro _ tks htks
    simp only [List.flatMap_nil, List.nil_append] at htks
    obtain ⟨p, tks2, rfl, h2⟩ := toks_snd_cons tks [] [] htks
    have h0 : tks2 = [] := by simpa using h2
    subst h0
    rw [read_top_level_skip p [] [] (by rfl), read_top_level.eq_def]
    rfl
  | cons s segs ih =>
    intro hwf tks htks
    cases s with
    | plain l =>
      rw [List.flatMap_cons] at htks
      rw [show segLines path (.plain l) = [l] from rfl] at htks
      rw [List.append_assoc, List.singleton_append] at htks
      obtain ⟨p, tks2, rfl, h2⟩ := toks_snd_cons tks l _ htks
      have hswf := hwf (.plain l) (List.mem_cons_self _ _)
      rw [read_top_level_skip p l tks2 hswf.1]
      rw [List.flatMap_cons, show segBlocks path (.plain l) = [] from rfl,
        List.nil_append]
      exact ih (fun s2 hs => hwf s2 (List.mem_cons_of_mem _ hs)) tks2 h2
    | chunk I nm j c =>
      obtain ⟨hIc, hpne, hpc, hnne, hnc, hnl, hlok, -⟩ :=
        hwf (.chunk I nm j c) (List.mem_cons_self _ _)
      rw [List.flatMap_cons] at htks
      rw [show segLines path (.chunk I nm j c) =
        mkOpenMarker I path nm j :: ((mdLines c).map (I ++ ·) ++
          [mkCloseMarker I]) from rfl] at htks
      simp only [List.cons_append, List.append_assoc, List.singleton_append]
        at htks
      obtain ⟨p, tks1, rfl, h1⟩ := toks_snd_cons tks _ _ htks
      obtain ⟨tmid, tks2, rfl, hmid, h2⟩ :=
        toks_snd_append ((mdLines c).map (I ++ ·)) tks1 _ h1
      obtain ⟨pC, tks3, rfl, h3⟩ := toks_snd_cons tks2 _ _ h2
      have htmid : ∀ t ∈ tmid, ∃ l, t.2 = I ++ l ∧ lineOKB l = true := by
        intro t ht
        have hts : t.2 ∈ tmid.map Prod.snd := List.mem_map_of_mem _ ht
        rw [hmid] at hts
        obtain ⟨l, hlmem, hle⟩ := List.mem_map.mp hts
        exact ⟨l, hle.symm, hlok l hlmem⟩
      rw [read_top_level_chunk path nm I j hIc hpne hpc hnne hnc p pC tmid _ htmid]
      rw [ih (fun s2 hs => hwf s2 (List.mem_cons_of_mem _ hs)) tks3 h3]
      have hmap : tmid.map (fun t => chunkStrip I t.2) = mdLines c := by
        calc tmid.map (fun t => chunkStrip I t.2)
            = (tmid.map Prod.snd).map (chunkStrip I) := by
              rw [List.map_map]
              rfl
          _ = ((mdLines c).map (I ++ ·)).map (chunkStrip I) := by rw [hmid]
          _ = (mdLines c).map (fun l => chunkStrip I (I ++ l)) := by
              rw [List.map_map]
              rfl
          _ = (mdLines c).map id := List.map_congr_left
              (fun l hl => chunkStrip_spec I l hIc (hlok l hl))
          _ = mdLines c := List.map_id _
      rw [List.flatMap_cons, show segBlocks path (.chunk I nm j c) =
        [⟨⟨ReferenceName.from_str nm, path, j⟩, c⟩] from rfl,
        List.singleton_append]
      simp only [Except.map, hmap, mdLines_flatten c hnl]

theorem expLinesWith_plain (exp : Str → Str → Option Str) (d : MdDoc) (I : Str) :
    ∀ (ls : List Str), (∀ l ∈ ls, parseRefLine l = none) →
    expLinesWith exp d I ls = some ((ls.map (I ++ ·)).flatten) := by
  intro ls
  induction ls with
  | nil => intro _; rfl
  | cons l ls ih =>
    intro h
    simp only [expLinesWith, h l (List.mem_cons_self _ _),
      ih (fun x hx => h x (List.mem_cons_of_mem _ hx))]
    simp [List.append_assoc]

theorem expandContent_plain (d : MdDoc) (f : Nat) (I c : Str)
    (hls : ∀ l ∈ mdLines c, parseRefLine l = none) :
    expandContent d (f + 1) I c = some (((mdLines c).map (I ++ ·)).flatten) := by
  rw [show expandContent d (f + 1) I c =
    expLinesWith (expandContent d f) d I (mdLines c) from rfl]
  exact expLinesWith_plain _ d I (mdLines c) hls

theorem expBlocksWith_noninit (exp : Str → Str → Option Str) (d : MdDoc)
    (I : Str) :
    ∀ (L : List (MdBlock × Nat)),
    (∀ bj ∈ L, bj.1.target = none ∧
      exp I bj.1.content = some (((mdLines bj.1.content).map (I ++ ·)).flatten)) →
    expBlocksWith exp d I L =
      some ((L.map (fun bj =>
        segText d.path (.chunk I bj.1.name bj.2 bj.1.content))).flatten) := by
  intro L
  induction L with
  | nil => intro _; rfl
  | cons bj L ih =>
    intro h
    obtain ⟨ht, he⟩ := h bj (List.mem_cons_self _ _)
    simp only [expBlocksWith, he,
      ih (fun x hx => h x (List.mem_cons_of_mem _ hx)), ht]
    simp [segText, segLines, List.flatten_append, List.append_assoc]

theorem withOrdsAux_fst : ∀ (bs seen : List MdBlock),
    (withOrdsAux seen bs).map Prod.fst = bs := by
  intro bs
  induction bs with
  | nil => intro seen; rfl
  | cons b rest ih =>
    intro seen
    simp only [withOrdsAux, List.map_cons, ih]

theorem withOrds_mem_blocks (d : MdDoc) (bj : MdBlock × Nat)
    (h : bj ∈ withOrds d.blocks) : bj.1 ∈ d.blocks := by
  have hm : bj.1 ∈ (withOrdsAux [] d.blocks).map Prod.fst :=
    List.mem_map_of_mem _ h
  rwa [withOrdsAux_fst] at hm

theorem blocksOf_mem (d : MdDoc) (n : Str) (bj : MdBlock × Nat)
    (h : bj ∈ blocksOf d n) : bj ∈ withOrds d.blocks ∧ bj.1.name = n := by
  simp only [blocksOf, List.mem_filter, decide_eq_true_eq] at h
  exact h

theorem roundTripWF_parts (d : MdDoc) (h : roundTripWF d = true) :
    (¬d.path = [] ∧ ∀ c ∈ d.path, pathCharB c = true) ∧
    noDupInit d = true ∧
    ∀ b ∈ d.blocks, ¬b.name = [] ∧ (∀ c ∈ b.name, nameCharB c = true) ∧
      nlTerminatedB b.content = true ∧
      ∀ l ∈ mdLines b.content, refLineOKB d b l = true := by
  simp only [roundTripWF, Bool.and_eq_true, List.all_eq_true] at h
  obtain ⟨⟨⟨hp1, hp2⟩, hdup⟩, hbl⟩ := h
  refine ⟨⟨?_, fun c hc => hp2 c hc⟩, hdup, ?_⟩
  · intro he
    rw [he] at hp1
    exact absurd hp1 (by simp)
  · intro b hb
    have hx := hbl b hb
    simp only [Bool.and_eq_true, List.all_eq_true] at hx
    obtain ⟨⟨⟨hn1, hn2⟩, hnl⟩, hlines⟩ := hx
    refine ⟨?_, fun c hc => hn2 c hc, hnl, fun l hl => hlines l hl⟩
    intro he
    rw [he] at hn1
    exact absurd hn1 (by simp)

theorem refLineOK_noninit (d : MdDoc) (b : MdBlock) (l : Str)
    (ht : b.target = none) (h : refLineOKB d b l = true) :
    parseRefLine l = none ∧ lineOKB l = true := by
  cases hpl : parseRefLine l with
  | none =>
    simp only [refLineOKB, hpl] at h
    exact ⟨rfl, h⟩
  | some q =>
    simp only [refLineOKB, hpl, ht] at h
    simp at h

theorem refLineOK_ref (d : MdDoc) (b : MdBlock) (l : Str) (q : Str × Str)
    (hpl : parseRefLine l = some q) (h : refLineOKB d b l = true) :
    b.target.isSome = true ∧ ¬blocksOf d q.2 = [] ∧
    ∀ bj ∈ blocksOf d q.2, bj.1.target = none := by
  simp only [refLineOKB, hpl, Bool.and_eq_true, List.all_eq_true,
    decide_eq_true_eq] at h
  obtain ⟨⟨h1, h2⟩, h3⟩ := h
  refine ⟨h1, ?_, fun bj hbj => h3 bj hbj⟩
  intro he
  rw [he] at h2
  exact absurd h2 (by simp)

theorem segText_flatten (path : Str) : ∀ (L : List Seg),
    (L.map (segText path)).flatten = (L.flatMap (segLines path)).flatten := by
  intro L
  induction L with
  | nil => rfl
  | cons s L ih =>
    simp only [List.map_cons, List.flatMap_cons, List.flatten_cons,
      List.flatten_append, segText, ih]

theorem expLinesWith_segs (d : MdDoc)
    (hbl : ∀ b ∈ d.blocks, nlTerminatedB b.content = true ∧
      ∀ l ∈ mdLines b.content, refLineOKB d b l = true)
    (f : Nat) :
    ∀ (ls : List Str),
    (∀ l ∈ ls, ∀ q, parseRefLine l = some q →
      ¬blocksOf d q.2 = [] ∧ ∀ bj ∈ blocksOf d q.2, bj.1.target = none) →
    expLinesWith (expandContent d (f + 1)) d [] ls =
      some (((ls.flatMap (fun l =>
        match parseRefLine l with
        | none => [Seg.plain l]
        | some q => (blocksOf d q.2).map
            (fun bj => Seg.chunk q.1 bj.1.name bj.2 bj.1.content))).map
          (segText d.path)).flatten) := by
  intro ls
  induction ls with
  | nil => intro _; rfl
  | cons l ls ih =>
    intro h
    have ihr := ih (fun x hx => h x (List.mem_cons_of_mem _ hx))
    cases hpl : parseRefLine l with
    | none =>
      simp only [expLinesWith, hpl, ihr]
      simp only [List.flatMap_cons, hpl, List.map_append, List.flatten_append,
        List.singleton_append, List.map_cons, List.flatten_cons]
      simp [segText, segLines, List.append_assoc]
    | some q =>
      obtain ⟨hne, hni⟩ := h l (List.mem_cons_self _ _) q hpl
      cases hbs : blocksOf d q.2 with
      | nil => exact absurd hbs hne
      | cons b0 bs0 =>
        have hmem : ∀ bj ∈ b0 :: bs0, bj.1.target = none ∧
            expandContent d (f + 1) q.1 bj.1.content =
              some (((mdLines bj.1.content).map (q.1 ++ ·)).flatten) := by
          intro bj hbj
          rw [← hbs] at hbj
          have htn : bj.1.target = none := hni bj hbj
          have hb1 : bj.1 ∈ d.blocks :=
            withOrds_mem_blocks d bj (blocksOf_mem d q.2 bj hbj).1
          obtain ⟨-, hrl⟩ := hbl bj.1 hb1
          refine ⟨htn, expandContent_plain d f q.1 bj.1.content ?_⟩
          intro x hx
          exact (refLineOK_noninit d bj.1 x htn (hrl x hx)).1
        have hexp := expBlocksWith_noninit (expandContent d (f + 1)) d q.1
          (b0 :: bs0) hmem
        simp only [expLinesWith, hpl, hbs, List.nil_append, hexp, ihr]
        simp only [List.flatMap_cons, hpl, hbs, List.map_append,
          List.flatten_append, List.map_map]
        simp [Function.comp_def]

theorem tangleTargets_spec (d : MdDoc) (hWF : roundTripWF d = true) :
    ∀ (bs : List MdBlock), (∀ b ∈ bs, b ∈ d.blocks) →
    tangleTargets d bs = some (tangleSpec d bs) := by
  have hparts := roundTripWF_parts d hWF
  have hbl : ∀ b ∈ d.blocks, nlTerminatedB b.content = true ∧
      ∀ l ∈ mdLines b.content, refLineOKB d b l = true :=
    fun b hb => ⟨(hparts.2.2 b hb).2.2.1, (hparts.2.2 b hb).2.2.2⟩
  intro bs
  induction bs with
  | nil => intro _; rfl
  | cons b bs ih =>
    intro hmem
    have hbd : b ∈ d.blocks := hmem b (List.mem_cons_self _ _)
    cases hbt : b.target with
    | none =>
      simp only [tangleTargets, tangleSpec, hbt]
      exact ih (fun x hx => hmem x (List.mem_cons_of_mem _ hx))
    | some p =>
      have hlrefs : ∀ l ∈ mdLines b.content, ∀ q, parseRefLine l = some q →
          ¬blocksOf d q.2 = [] ∧ ∀ bj ∈ blocksOf d q.2, bj.1.target = none := by
        intro l hl q hq
        have := refLineOK_ref d b l q hq ((hbl b hbd).2 l hl)
        exact ⟨this.2.1, this.2.2⟩
      have hexp : expandContent d (d.blocks.length + 2) [] b.content =
          some (((segsOf d b.content).map (segText d.path)).flatten) := by
        rw [show expandContent d (d.blocks.length + 2) [] b.content =
          expLinesWith (expandContent d (d.blocks.length + 1)) d []
            (mdLines b.content) from rfl]
        exact expLinesWith_segs d hbl (d.blocks.length) (mdLines b.content) hlrefs
      simp only [tangleTargets, tangleSpec, hbt, hexp,
        ih (fun x hx => hmem x (List.mem_cons_of_mem _ hx))]

theorem countName_append (x y : List MdBlock) (n : Str) :
    countName (x ++ y) n = countName x n + countName y n := by
  simp [countName, List.filter_append]

theorem countName_self (b : MdBlock) : countName [b] b.name = 1 := by
  simp [countName]

theorem withOrdsAux_ord_bound : ∀ (bs seen : List MdBlock),
    ∀ bj ∈ withOrdsAux seen bs, countName seen bj.1.name ≤ bj.2 := by
  intro bs
  induction bs with
  | nil => intro seen bj hbj; simp [withOrdsAux] at hbj
  | cons b rest ih =>
    intro seen bj hbj
    simp only [withOrdsAux, List.mem_cons] at hbj
    rcases hbj with rfl | hbj
    · exact le_refl _
    · have := ih (seen ++ [b]) bj hbj
      rw [countName_append] at this
      omega

theorem withOrdsAux_inj : ∀ (bs seen : List MdBlock),
    ∀ bj ∈ withOrdsAux seen bs, ∀ bk ∈ withOrdsAux seen bs,
    bj.1.name = bk.1.name → bj.2 = bk.2 → bj = bk := by
  intro bs
  induction bs with
  | nil => intro seen bj hbj; simp [withOrdsAux] at hbj
  | cons b rest ih =>
    intro seen bj hbj bk hbk hname hord
    simp only [withOrdsAux, List.mem_cons] at hbj hbk
    rcases hbj with rfl | hbj <;> rcases hbk with rfl | hbk
    · rfl
    · exfalso
      have hb := withOrdsAux_ord_bound rest (seen ++ [b]) bk hbk
      rw [countName_append, ← hname] at hb
      have hn2 : countName [b]
          ((b, countName seen b.name) : MdBlock × Nat).1.name = 1 :=
        countName_self b
      have hs : countName seen
          ((b, countName seen b.name) : MdBlock × Nat).1.name =
          countName seen b.name := rfl
      simp only at hord
      omega
    · exfalso
      have hb := withOrdsAux_ord_bound rest (seen ++ [b]) bj hbj
      rw [countName_append, hname] at hb
      have hn2 : countName [b]
          ((b, countName seen b.name) : MdBlock × Nat).1.name = 1 :=
        countName_self b
      have hs : countName seen
          ((b, countName seen b.name) : MdBlock × Nat).1.name =
          countName seen b.name := rfl
      simp only at hord
      omega
    · exact ih (seen ++ [b]) bj hbj bk hbk hname hord

theorem splitOnChar_nodot (nm : Str) (h : ∀ c ∈ nm, ¬c = '.') :
    splitOnChar '.' nm = [nm] := by
  induction nm with
  | nil => rfl
  | cons c rest ih =>
    simp only [splitOnChar]
    rw [if_neg (h c (List.mem_cons_self _ _)),
      ih (fun x hx => h x (List.mem_cons_of_mem _ hx))]

theorem from_str_nodot (nm : Str) (h : ∀ c ∈ nm, ¬c = '.') :
    ReferenceName.from_str nm = ⟨[], nm⟩ := by
  simp [ReferenceName.from_str, splitOnChar_nodot nm h]

theorem nameCharB_nodot (c : Char) (h : nameCharB c = true) : ¬c = '.' := by
  simp only [nameCharB, Bool.not_eq_eq_eq_not, Bool.not_true,
    Bool.or_eq_false_iff, decide_eq_false_iff_not] at h
  exact h.2

theorem from_str_inj_nodot (a b : Str) (ha : ∀ c ∈ a, ¬c = '.')
    (hb : ∀ c ∈ b, ¬c = '.') (h : ReferenceName.from_str a = ReferenceName.from_str b) :
    a = b := by
  rw [from_str_nodot a ha, from_str_nodot b hb] at h
  exact congrArg ReferenceName.name h

theorem stitchDoc_faithful (d : MdDoc)
    (hnames : ∀ b ∈ d.blocks, ∀ c ∈ b.name, nameCharB c = true)
    (B : List Block)
    (hB : ∀ blk ∈ B, ∃ bk, bk ∈ withOrds d.blocks ∧
      blk = ⟨⟨ReferenceName.from_str bk.1.name, d.path, bk.2⟩, bk.1.content⟩) :
    stitchDoc d B = d := by
  have hmap : ∀ bj ∈ withOrds d.blocks,
      (fun (bj : MdBlock × Nat) =>
        match B.find? (fun blk =>
            decide (blk.reference_id.name = ReferenceName.from_str bj.1.name) &&
            decide (blk.reference_id.source = d.path) &&
            decide (blk.reference_id.ref_count = bj.2)) with
        | some blk => { bj.1 with content := blk.content }
        | none => bj.1) bj = Prod.fst bj := by
    intro bj hbj
    simp only
    cases hf : B.find? (fun blk =>
        decide (blk.reference_id.name = ReferenceName.from_str bj.1.name) &&
        decide (blk.reference_id.source = d.path) &&
        decide (blk.reference_id.ref_count = bj.2)) with
    | none => rfl
    | some blk =>
      have hmem := List.mem_of_find?_eq_some hf
      have hpred := List.find?_some hf
      simp only [Bool.and_eq_true, decide_eq_true_eq] at hpred
      obtain ⟨⟨hname, _⟩, hcnt⟩ := hpred
      obtain ⟨bk, hbk, rfl⟩ := hB blk hmem
      simp only at hname hcnt
      have hkname : bk.1.name = bj.1.name :=
        from_str_inj_nodot bk.1.name bj.1.name
          (fun c hc => nameCharB_nodot c
            (hnames bk.1 (withOrds_mem_blocks d bk hbk) c hc))
          (fun c hc => nameCharB_nodot c
            (hnames bj.1 (withOrds_mem_blocks d bj hbj) c hc))
          hname
      have hkeq : bk = bj := withOrdsAux_inj d.blocks [] bk hbk bj hbj hkname hcnt
      rw [hkeq]
  have hblocks : (withOrds d.blocks).map (fun bj =>
      match B.find? (fun blk =>
          decide (blk.reference_id.name = ReferenceName.from_str bj.1.name) &&
          decide (blk.reference_id.source = d.path) &&
          decide (blk.reference_id.ref_count = bj.2)) with
      | some blk => { bj.1 with content := blk.content }
      | none => bj.1) = d.blocks := by
    rw [List.map_congr_left hmap]
    exact withOrdsAux_fst d.blocks []
  simp only [stitchDoc, hblocks]

theorem numbered_lines_snd (fn t : Str) :
    (numbered_lines fn t).map Prod.snd = linesSplit t := by
  rw [numbered_lines, List.map_map]
  exact List.enum_map_snd _

theorem parseRefLine_ws (l : Str) (q : Str × Str) (h : parseRefLine l = some q) :
    ∀ c ∈ q.1, isSpTab c = true := by
  simp only [parseRefLine] at h
  split at h
  · split at h
    · have hq := Option.some.inj h
      subst hq
      intro c hc
      exact List.mem_takeWhile_imp hc
    · exact absurd h (by simp)
  · exact absurd h (by simp)

theorem segLines_singleNl (path : Str) (s : Seg) (h : SegWF path s) :
    ∀ l ∈ segLines path s, singleNlB l = true := by
  cases s with
  | plain l =>
    intro x hx
    obtain rfl := List.mem_singleton.mp hx
    exact h.2
  | chunk I nm j c =>
    obtain ⟨hI, hpne, hpc, hnne, hnc, hnl, hlok, -⟩ := h
    intro x hx
    simp only [segLines, List.mem_cons, List.mem_append, List.mem_map,
      List.mem_singleton] at hx
    rcases hx with (rfl | ⟨l, hl, rfl⟩) | rfl | hx
    · exact singleNl_mkOpen I path nm j hI hpc hnc
    · exact singleNl_indent I l hI (mdLines_singleNl c hnl l hl)
    · exact singleNl_mkClose I hI
    · exact absurd hx (List.not_mem_nil x)

theorem segsOf_SegWF (d : MdDoc) (hWF : roundTripWF d = true) (b : MdBlock)
    (hb : b ∈ d.blocks) : ∀ s ∈ segsOf d b.content, SegWF d.path s := by
  have hparts := roundTripWF_parts d hWF
  intro s hs
  simp only [segsOf, List.mem_flatMap] at hs
  obtain ⟨l, hl, hseg⟩ := hs
  have hrl := (hparts.2.2 b hb).2.2.2 l hl
  cases hpl : parseRefLine l with
  | none =>
    rw [hpl] at hseg
    obtain rfl := List.mem_singleton.mp hseg
    have hlok : lineOKB l = true := by
      simp only [refLineOKB, hpl] at hrl
      exact hrl
    refine ⟨?_, ?_⟩
    · have hob := (open_block_marker_free [] l (by simp) hlok).1
      simpa using hob
    · exact mdLines_singleNl b.content (hparts.2.2 b hb).2.2.1 l hl
  | some q =>
    rw [hpl] at hseg
    obtain ⟨bj, hbj, heq⟩ := List.mem_map.mp hseg
    subst heq
    obtain ⟨-, -, hni⟩ := refLineOK_ref d b l q hpl hrl
    have hbj1 : bj.1 ∈ d.blocks :=
      withOrds_mem_blocks d bj (blocksOf_mem d q.2 bj hbj).1
    obtain ⟨hnname, hnchar, hnnl, hnlines⟩ := hparts.2.2 bj.1 hbj1
    refine ⟨parseRefLine_ws l q hpl, hparts.1.1, hparts.1.2, hnname, hnchar,
      hnnl, ?_, rfl⟩
    intro x hx
    exact (refLineOK_noninit d bj.1 x (hni bj hbj) (hnlines x hx)).2

theorem init_block_read (d : MdDoc) (hWF : roundTripWF d = true)
    (b : MdBlock) (hb : b ∈ d.blocks) (fn : Str) :
    read_top_level (numbered_lines fn
        (((segsOf d b.content).map (segText d.path)).flatten)) =
      .ok ((segsOf d b.content).flatMap (segBlocks d.path)) := by
  have hsegwf := segsOf_SegWF d hWF b hb
  have hsnl : ∀ l ∈ (segsOf d b.content).flatMap (segLines d.path),
      singleNlB l = true := by
    intro l hl
    obtain ⟨s, hs, hl2⟩ := List.mem_flatMap.mp hl
    exact segLines_singleNl d.path s (hsegwf s hs) l hl2
  have htoks : (numbered_lines fn
      (((segsOf d b.content).map (segText d.path)).flatten)).map Prod.snd =
      (segsOf d b.content).flatMap (segLines d.path) ++ [[]] := by
    rw [numbered_lines_snd, segText_flatten]
    have hsp := linesSplit_flatten_append
      ((segsOf d b.content).flatMap (segLines d.path)) [] hsnl
    simpa using hsp
  exact read_top_level_segs d.path (segsOf d b.content) hsegwf _ htoks

theorem backreadAll_spec (d : MdDoc) (hWF : roundTripWF d = true) :
    ∀ (bs : List MdBlock), (∀ b ∈ bs, b ∈ d.blocks) →
    ∃ B, backreadAll (tangleSpec d bs) = .ok B ∧
      ∀ blk ∈ B, ∃ bk, bk ∈ withOrds d.blocks ∧
        blk = ⟨⟨ReferenceName.from_str bk.1.name, d.path, bk.2⟩, bk.1.content⟩ := by
  intro bs
  induction bs with
  | nil => exact fun _ => ⟨[], rfl, by simp⟩
  | cons b bs ih =>
    intro hmem
    obtain ⟨B, hB, hfaith⟩ := ih (fun x hx => hmem x (List.mem_cons_of_mem _ hx))
    cases hbt : b.target with
    | none =>
      simp only [tangleSpec, hbt]
      exact ⟨B, hB, hfaith⟩
    | some p =>
      have hread := init_block_read d hWF b (hmem b (List.mem_cons_self _ _)) p
      refine ⟨(segsOf d b.content).flatMap (segBlocks d.path) ++ B, ?_, ?_⟩
      · simp only [tangleSpec, hbt, backreadAll, hread, hB]
      · intro blk hblk
        rcases List.mem_append.mp hblk with hblk | hblk
        · obtain ⟨s, hs, hsb⟩ := List.mem_flatMap.mp hblk
          cases s with
          | plain l => simp [segBlocks] at hsb
          | chunk I nm j c =>
            obtain rfl := List.mem_singleton.mp hsb
            simp only [segsOf, List.mem_flatMap] at hs
            obtain ⟨l, hl, hseg⟩ := hs
            cases hpl : parseRefLine l with
            | none =>
              rw [hpl] at hseg
              simp at hseg
            | some q =>
              rw [hpl] at hseg
              obtain ⟨bj, hbj, heq⟩ := List.mem_map.mp hseg
              refine ⟨bj, (blocksOf_mem d q.2 bj hbj).1, ?_⟩
              simp only [Seg.chunk.injEq] at heq
              obtain ⟨-, h1, h2, h3⟩ := heq
              rw [← h1, ← h2, ← h3]
        · exact hfaith blk hblk

/-- C2 (amended): stitching the tangled output back into the document is
the identity for well-formed documents: marker-safe path and block
names, newline-terminated contents, every content line either a bare
newline or visible non-marker text, references appearing only in blocks
carrying a target and resolving to a nonempty run of non-init blocks,
and distinct target declarations.  (The frozen claim asserted the round
trip for every document with defined references and distinct targets;
the counterexample shows it fails when a non-init block itself contains
a reference, because the back-reader records the nested numeric-ordinal
block with an empty placeholder.) -/
theorem C2_round_trip (d : MdDoc) (h : roundTripWF d = true) :
    roundTrip d = some d := by
  have hparts := roundTripWF_parts d h
  have htan : tangleDoc d = some (tangleSpec d d.blocks) := by
    rw [tangleDoc]
    exact tangleTargets_spec d h d.blocks (fun b hb => hb)
  obtain ⟨B, hback, hfaith⟩ := backreadAll_spec d h d.blocks (fun b hb => hb)
  simp only [roundTrip, htan, hback,
    stitchDoc_faithful d (fun b hb => (hparts.2.2 b hb).2.1) B hfaith]

/-- Witness for the amended C2: a concrete well-formed document whose
round trip is the identity. -/
theorem C2_round_trip_witness :
    roundTripWF C2D2 = true ∧ roundTrip C2D2 = some C2D2 :=
  ⟨by decide, C2_round_trip C2D2 (by decide)⟩
